import Mathlib

/-!
Verification development for the diff-aware code-review pipeline.

This file gives a shallow embedding, in Lean 4, of the core components of
the repository (policy engine, retry/rate-limit classification, triage
failure handling, the per-file review loop, unified-diff parsing and
excerpt extraction, JSON payload extraction, and secret redaction), and
proves the specified properties about them.

Modelling conventions:
- Python floats used for confidences are modelled as rationals (`Rat`);
  only order comparisons on them occur in the embedded code, and those
  agree with the rational order on the literal values involved.
- Python strings are modelled as `String` (or `List Char` where character
  level scanning is embedded); `str.strip()` is modelled by trimming the
  standard whitespace characters, `str.lower()` by `String.toLower`.
- Python `list.sort` (a stable sort) is modelled by `List.mergeSort`,
  which is also stable, with the same ordering key.
- Raising an exception is modelled by `Except`.
-/

/-! ## Python string primitives

The embedded code uses `str.strip()`, `str.lower()` and slicing.  These
are modelled structurally over the character list of a `String` so that
they compute by kernel reduction. -/

/-- Python whitespace for `str.strip()` (space, tab, newline, carriage
return, vertical tab, form feed). -/
def pyIsSpace (c : Char) : Bool :=
  c = ' ' || c = '\t' || c = '\n' || c = '\r' || c = '\x0b' || c = '\x0c'

/-- Model of `str.strip()` on a character list. -/
def pyStripChars (cs : List Char) : List Char :=
  ((cs.dropWhile pyIsSpace).reverse.dropWhile pyIsSpace).reverse

/-- Model of `str.strip()`. -/
def pyStrip (s : String) : String :=
  ⟨pyStripChars s.data⟩

/-- Model of `str.lower()` (ASCII case folding, which is all the embedded
code relies on). -/
def pyLower (s : String) : String :=
  ⟨s.data.map Char.toLower⟩

/-! ## Domain model (src/domain.py) -/

/-- Severity enum from `src/domain.py`. -/
inductive Severity where
  | blocker
  | important
  | nit
  | question
deriving DecidableEq, Repr

/-- The string value of a `Severity` member (`Severity.value` in Python). -/
def Severity.value : Severity → String
  | .blocker => "BLOCKER"
  | .important => "IMPORTANT"
  | .nit => "NIT"
  | .question => "QUESTION"

/-- Category enum from `src/domain.py`. -/
inductive Category where
  | style
  | arch
  | bug
  | security
  | perf
  | testing
  | docs
deriving DecidableEq, Repr

/-- EvidenceType enum from `src/domain.py`. -/
inductive EvidenceType where
  | doc
  | diff
deriving DecidableEq, Repr

/-- Evidence model from `src/domain.py`. -/
structure Evidence where
  type : EvidenceType
  source : String
  excerpt : String
deriving DecidableEq, Repr

/-- CommentPosition model from `src/domain.py` (`side` is the literal
"LEFT"/"RIGHT" string). -/
structure CommentPosition where
  file_path : String
  line_number : Int
  side : String := "RIGHT"
  commit_id : Option String := none
deriving DecidableEq, Repr

/-- Issue model from `src/domain.py`.  Confidence is a rational standing
for the Python float. -/
structure Issue where
  id : String
  rule_id : Option String := none
  fingerprint : Option String := none
  severity : Severity
  category : Category
  title : String
  message : String
  path : String
  line_start : Int
  line_end : Int
  position : Option CommentPosition := none
  evidence : Option Evidence := none
  suggestion : Option String := none
  confidence : Rat
deriving DecidableEq, Repr

/-! ## PolicyManager (src/policy/manager.py) -/

/-- PolicyManager construction state: the three caps and the per-severity
minimum-confidence map (a total function, since the Python dict built in
`__init__` has one entry per `Severity` member; the `.get` default `0.75`
is therefore never consulted for a `Severity` value). -/
structure PolicyManager where
  max_comments : Nat := 15
  max_inline : Nat := 8
  max_per_file : Nat := 2
  min_confidence : Severity → Rat

/-- The default per-severity thresholds from `PolicyManager.__init__`
(the env-var fallback strings "0.9", "0.85", "0.7", "0.75"). -/
def defaultMinConfidence : Severity → Rat
  | .blocker => mkRat 9 10
  | .important => mkRat 85 100
  | .question => mkRat 7 10
  | .nit => mkRat 75 100

/-- A PolicyManager built with all defaults. -/
def defaultPolicyManager : PolicyManager :=
  { min_confidence := defaultMinConfidence }

/-- The gating phase of `apply_policy` (manager.py lines 35-51): an issue
survives the `continue` chain iff its confidence meets the per-severity
threshold, it has evidence with a non-empty excerpt, its title and message
are non-blank after stripping, and (for BLOCKER/IMPORTANT) its suggestion
has stripped length at least 8.  Python truthiness: `not issue.evidence`
is false exactly on a present model instance, and `not s` on a string is
`s = ""`. -/
def PolicyManager.passesGates (pm : PolicyManager) (issue : Issue) : Bool :=
  if issue.confidence < pm.min_confidence issue.severity then false
  else if (match issue.evidence with
           | none => true
           | some ev => ev.excerpt = "") then false
  else if pyStrip issue.title = "" || pyStrip issue.message = "" then false
  else if issue.severity = .blocker || issue.severity = .important then
    decide (8 ≤ (pyStrip (issue.suggestion.getD "")).length)
  else true

/-- The fingerprint-synthesis step of `apply_policy` (manager.py lines
54-57): if the fingerprint is falsy (absent or empty), synthesize
`"path:line_start:line_end:title"`. -/
def withFingerprint (issue : Issue) : Issue :=
  if issue.fingerprint.getD "" = "" then
    { issue with
        fingerprint := some (issue.path ++ ":" ++ toString issue.line_start
          ++ ":" ++ toString issue.line_end ++ ":" ++ issue.title) }
  else issue

/-- The gated, fingerprint-completed list (`filtered_issues` in
`apply_policy`): gating reads no field that fingerprint synthesis writes,
so filter-then-map is the loop of manager.py lines 34-59. -/
def PolicyManager.gatedIssues (pm : PolicyManager) (issues : List Issue) : List Issue :=
  (issues.filter pm.passesGates).map withFingerprint

/-- The deduplication key of `apply_policy` (manager.py lines 65-71). -/
def semanticKey (issue : Issue) : String × Int × Int × String × String :=
  (issue.path, issue.line_start, issue.line_end, issue.severity.value,
    pyLower (pyStrip issue.title))

/-- The deduplication loop of `apply_policy` (manager.py lines 62-74):
keep an issue iff its semantic key has not been seen before. -/
def dedupByKey : List Issue → List (String × Int × Int × String × String) → List Issue
  | [], _ => []
  | issue :: rest, seen =>
    if semanticKey issue ∈ seen then dedupByKey rest seen
    else issue :: dedupByKey rest (semanticKey issue :: seen)

/-- The severity rank used for sorting (manager.py lines 77-82); the
`.get(_, 4)` default is never consulted for a `Severity` value. -/
def severityOrder : Severity → Nat
  | .blocker => 0
  | .important => 1
  | .question => 2
  | .nit => 3

/-- The sort ordering of `apply_policy` (manager.py lines 83-85): Python
sorts ascending by the key `(severity_order, -confidence)`. -/
def sortLE (a b : Issue) : Bool :=
  decide (severityOrder a.severity < severityOrder b.severity ∨
    (severityOrder a.severity = severityOrder b.severity ∧
      b.confidence ≤ a.confidence))

/-- The per-file cap loop of `apply_policy` (manager.py lines 88-95),
with the running `file_counts` dict modelled as a function. -/
def capPerFile (maxPerFile : Nat) : List Issue → (String → Nat) → List Issue
  | [], _ => []
  | issue :: rest, counts =>
    if maxPerFile ≤ counts issue.path then capPerFile maxPerFile rest counts
    else issue ::
      capPerFile maxPerFile rest
        (fun p => if p = issue.path then counts issue.path + 1 else counts p)

/-- `PolicyManager.apply_policy` (manager.py lines 30-98): gate,
synthesize fingerprints, deduplicate by semantic key, stable-sort by
(severity rank, confidence descending), cap per file, cap the total. -/
def PolicyManager.apply_policy (pm : PolicyManager) (issues : List Issue) : List Issue :=
  (capPerFile pm.max_per_file
    ((dedupByKey (pm.gatedIssues issues) []).mergeSort sortLE)
    (fun _ => 0)).take pm.max_comments

/-! ## Policy engine lemmas -/

/-- Mapping a function that fixes every member of a list is the identity. -/
theorem list_map_eq_self {α : Type} {f : α → α} :
    ∀ {l : List α}, (∀ a ∈ l, f a = a) → l.map f = l
  | [], _ => rfl
  | x :: xs, h => by
    simp only [List.map_cons, h x (by simp)]
    rw [list_map_eq_self (fun a ha => h a (by simp [ha]))]

/-- Gating never reads the fingerprint, so fingerprint synthesis does not
change the gate verdict. -/
theorem passesGates_withFingerprint (pm : PolicyManager) (i : Issue) :
    pm.passesGates (withFingerprint i) = pm.passesGates i := by
  unfold withFingerprint
  split <;> rfl

/-- The synthesized fingerprint string is never empty (it contains the
three `:` separators). -/
theorem synth_fingerprint_ne_empty (p a b t : String) :
    p ++ ":" ++ a ++ ":" ++ b ++ ":" ++ t ≠ "" := by
  intro h
  have hlen := congrArg String.length h
  simp only [String.length_append] at hlen
  have hc : (":" : String).length = 1 := rfl
  have h0 : ("" : String).length = 0 := rfl
  rw [hc, h0] at hlen
  omega

/-- Fingerprint synthesis is a fixed point on its own output. -/
theorem withFingerprint_idem (i : Issue) :
    withFingerprint (withFingerprint i) = withFingerprint i := by
  unfold withFingerprint
  by_cases h : i.fingerprint.getD "" = ""
  · rw [if_pos h]
    rw [if_neg]
    show ¬ (Option.getD (some _) "" = "")
    simpa using synth_fingerprint_ne_empty i.path (toString i.line_start)
      (toString i.line_end) i.title
  · rw [if_neg h, if_neg h]

/-- Members of the gated list pass the gates. -/
theorem mem_gatedIssues_passes {pm : PolicyManager} {issues : List Issue} {i : Issue}
    (h : i ∈ pm.gatedIssues issues) : pm.passesGates i = true := by
  obtain ⟨j, hj, rfl⟩ := List.mem_map.1 h
  rw [passesGates_withFingerprint]
  exact (List.mem_filter.1 hj).2

/-- Members of the gated list already carry their fingerprint. -/
theorem mem_gatedIssues_fixed {pm : PolicyManager} {issues : List Issue} {i : Issue}
    (h : i ∈ pm.gatedIssues issues) : withFingerprint i = i := by
  obtain ⟨j, _, rfl⟩ := List.mem_map.1 h
  exact withFingerprint_idem j

/-- Deduplication yields a sublist of its input. -/
theorem dedupByKey_sublist :
    ∀ (l : List Issue) (seen), List.Sublist (dedupByKey l seen) l
  | [], _ => List.Sublist.refl _
  | i :: rest, seen => by
    unfold dedupByKey
    split
    · exact (dedupByKey_sublist rest seen).cons i
    · exact (dedupByKey_sublist rest _).cons₂ i

/-- Every survivor of deduplication has an unseen key and is the first
issue of the input with that key. -/
theorem mem_dedupByKey :
    ∀ {l : List Issue} {seen} {i : Issue}, i ∈ dedupByKey l seen →
      semanticKey i ∉ seen ∧
      ∃ pre post, l = pre ++ i :: post ∧ ∀ j ∈ pre, semanticKey j ≠ semanticKey i := by
  intro l
  induction l with
  | nil => intro seen i h; cases h
  | cons x rest ih =>
    intro seen i h
    unfold dedupByKey at h
    by_cases hx : semanticKey x ∈ seen
    · rw [if_pos hx] at h
      obtain ⟨hseen, pre, post, hsplit, hpre⟩ := ih h
      refine ⟨hseen, x :: pre, post, by rw [hsplit]; rfl, ?_⟩
      intro j hj
      rcases List.mem_cons.1 hj with rfl | hj'
      · intro hk; exact hseen (hk ▸ hx)
      · exact hpre j hj'
    · rw [if_neg hx] at h
      rcases List.mem_cons.1 h with rfl | h'
      · exact ⟨hx, [], rest, rfl, by simp⟩
      · obtain ⟨hseen, pre, post, hsplit, hpre⟩ := ih h'
        have hne : semanticKey i ≠ semanticKey x := by
          intro hk; exact hseen (by simp [hk])
        refine ⟨fun hs => hseen (by simp [hs]), x :: pre, post, by rw [hsplit]; rfl, ?_⟩
        intro j hj
        rcases List.mem_cons.1 hj with rfl | hj'
        · exact fun hk => hne hk.symm
        · exact hpre j hj'

/-- The semantic keys of the deduplicated list are pairwise distinct. -/
theorem dedupByKey_keys_nodup :
    ∀ (l : List Issue) (seen), ((dedupByKey l seen).map semanticKey).Nodup
  | [], _ => List.nodup_nil
  | x :: rest, seen => by
    unfold dedupByKey
    split
    · exact dedupByKey_keys_nodup rest seen
    · rw [List.map_cons, List.nodup_cons]
      refine ⟨?_, dedupByKey_keys_nodup rest _⟩
      intro hmem
      obtain ⟨j, hj, hkj⟩ := List.mem_map.1 hmem
      have := (mem_dedupByKey hj).1
      exact this (by simp [hkj])

/-- Deduplication is the identity on a list whose keys are pairwise
distinct and disjoint from the seen set. -/
theorem dedupByKey_eq_self :
    ∀ {l : List Issue} {seen}, (l.map semanticKey).Nodup →
      (∀ j ∈ l, semanticKey j ∉ seen) → dedupByKey l seen = l := by
  intro l
  induction l with
  | nil => intro seen _ _; rfl
  | cons x rest ih =>
    intro seen hnodup hdisj
    unfold dedupByKey
    rw [if_neg (hdisj x (by simp))]
    congr 1
    rw [List.map_cons, List.nodup_cons] at hnodup
    refine ih hnodup.2 ?_
    intro j hj
    simp only [List.mem_cons, not_or]
    refine ⟨?_, hdisj j (by simp [hj])⟩
    intro hk
    exact hnodup.1 (hk ▸ List.mem_map_of_mem semanticKey hj)

/-- The sort ordering is transitive. -/
theorem sortLE_trans (a b c : Issue) : sortLE a b → sortLE b c → sortLE a c := by
  simp only [sortLE, decide_eq_true_eq]
  intro hab hbc
  rcases hab with h1 | ⟨h1, h2⟩ <;> rcases hbc with h3 | ⟨h3, h4⟩
  · exact Or.inl (h1.trans h3)
  · exact Or.inl (h3 ▸ h1)
  · exact Or.inl (h1 ▸ h3)
  · exact Or.inr ⟨h1.trans h3, h4.trans h2⟩

/-- The sort ordering is total. -/
theorem sortLE_total (a b : Issue) : sortLE a b || sortLE b a := by
  simp only [sortLE, Bool.or_eq_true, decide_eq_true_eq]
  rcases Nat.lt_trichotomy (severityOrder a.severity) (severityOrder b.severity) with h | h | h
  · exact Or.inl (Or.inl h)
  · rcases le_total a.confidence b.confidence with hc | hc
    · exact Or.inr (Or.inr ⟨h.symm, hc⟩)
    · exact Or.inl (Or.inr ⟨h, hc⟩)
  · exact Or.inr (Or.inl h)

/-- The number of issues of a list on a given path. -/
def pathCount (l : List Issue) (p : String) : Nat :=
  (l.filter (fun i => i.path = p)).length

/-- Unfolding `pathCount` over a cons cell. -/
theorem pathCount_cons (x : Issue) (rest : List Issue) (p : String) :
    pathCount (x :: rest) p
      = (if x.path = p then 1 else 0) + pathCount rest p := by
  simp only [pathCount, List.filter_cons]
  by_cases h : x.path = p
  · simp [h, Nat.add_comm]
  · simp [h]

/-- `pathCount` is monotone with respect to sublists. -/
theorem pathCount_sublist {l₁ l₂ : List Issue} (h : List.Sublist l₁ l₂) (p : String) :
    pathCount l₁ p ≤ pathCount l₂ p :=
  (h.filter _).length_le

/-- The per-file cap yields a sublist of its input. -/
theorem capPerFile_sublist (m : Nat) :
    ∀ (l : List Issue) (counts), List.Sublist (capPerFile m l counts) l
  | [], _ => List.Sublist.refl _
  | i :: rest, counts => by
    unfold capPerFile
    split
    · exact (capPerFile_sublist m rest counts).cons i
    · exact (capPerFile_sublist m rest _).cons₂ i

/-- The per-file cap bounds the per-path count of its output. -/
theorem pathCount_capPerFile_le (m : Nat) :
    ∀ (l : List Issue) (counts) (p : String),
      pathCount (capPerFile m l counts) p ≤ m - counts p := by
  intro l
  induction l with
  | nil => intro counts p; simp [capPerFile, pathCount]
  | cons i rest ih =>
    intro counts p
    unfold capPerFile
    split
    · exact ih counts p
    · rename_i hlt
      rw [pathCount_cons]
      by_cases hp : i.path = p
      · subst hp
        have hrec := ih (fun q => if q = i.path then counts i.path + 1 else counts q) i.path
        rw [if_pos rfl] at hrec
        rw [if_pos rfl]
        omega
      · have hrec := ih (fun q => if q = i.path then counts i.path + 1 else counts q) p
        rw [if_neg (show ¬(p = i.path) from fun h => hp h.symm)] at hrec
        rw [if_neg hp]
        omega

/-- The per-file cap is the identity when the input counts stay within
the cap. -/
theorem capPerFile_eq_self {m : Nat} :
    ∀ (l : List Issue) (counts), (∀ p, counts p + pathCount l p ≤ m) →
      capPerFile m l counts = l := by
  intro l
  induction l with
  | nil => intro counts _; rfl
  | cons i rest ih =>
    intro counts hle
    have hhead := hle i.path
    rw [pathCount_cons, if_pos rfl] at hhead
    unfold capPerFile
    rw [if_neg (by omega)]
    congr 1
    refine ih _ ?_
    intro p
    have := hle p
    rw [pathCount_cons] at this
    by_cases hp : i.path = p
    · subst hp; rw [if_pos rfl]; omega
    · rw [if_neg (fun h => hp h.symm)]; omega

/-- Members of the policy output come from the gated list. -/
theorem mem_apply_policy_gated {pm : PolicyManager} {issues : List Issue} {i : Issue}
    (h : i ∈ pm.apply_policy issues) : i ∈ pm.gatedIssues issues := by
  unfold PolicyManager.apply_policy at h
  have h1 := (List.take_sublist _ _).subset h
  have h2 := (capPerFile_sublist _ _ _).subset h1
  have h3 := List.mem_mergeSort.1 h2
  exact (dedupByKey_sublist _ _).subset h3

/-- The semantic keys of the policy output are pairwise distinct. -/
theorem apply_policy_keys_nodup (pm : PolicyManager) (issues : List Issue) :
    ((pm.apply_policy issues).map semanticKey).Nodup := by
  unfold PolicyManager.apply_policy
  have hunique := dedupByKey_keys_nodup (pm.gatedIssues issues) []
  have hperm :
      List.Perm
        ((List.mergeSort (dedupByKey (pm.gatedIssues issues) []) sortLE).map semanticKey)
        ((dedupByKey (pm.gatedIssues issues) []).map semanticKey) :=
    (List.mergeSort_perm _ _).map _
  have hsorted := hperm.nodup_iff.2 hunique
  have hcap :=
    (capPerFile_sublist pm.max_per_file
      ((dedupByKey (pm.gatedIssues issues) []).mergeSort sortLE)
      (fun _ => 0)).map semanticKey
  have htake :=
    (List.take_sublist pm.max_comments
      (capPerFile pm.max_per_file
        ((dedupByKey (pm.gatedIssues issues) []).mergeSort sortLE)
        (fun _ => 0))).map semanticKey
  exact (htake.trans hcap).nodup hsorted

/-- C1: `PolicyManager.apply_policy` is idempotent: applied to its own
output (for any caps and thresholds), gating, fingerprint synthesis,
deduplication, sorting, per-file capping and total capping are all fixed
points, so the output is returned unchanged. -/
theorem apply_policy_idempotent (pm : PolicyManager) (issues : List Issue) :
    pm.apply_policy (pm.apply_policy issues) = pm.apply_policy issues := by
  have hgate : ∀ i ∈ pm.apply_policy issues, pm.passesGates i = true :=
    fun i hi => mem_gatedIssues_passes (mem_apply_policy_gated hi)
  have hfp : ∀ i ∈ pm.apply_policy issues, withFingerprint i = i :=
    fun i hi => mem_gatedIssues_fixed (mem_apply_policy_gated hi)
  have step1 : pm.gatedIssues (pm.apply_policy issues) = pm.apply_policy issues := by
    unfold PolicyManager.gatedIssues
    rw [List.filter_eq_self.2 hgate, list_map_eq_self hfp]
  have hkeys := apply_policy_keys_nodup pm issues
  have step2 : dedupByKey (pm.apply_policy issues) [] = pm.apply_policy issues :=
    dedupByKey_eq_self hkeys (by simp)
  have hpair : (pm.apply_policy issues).Pairwise (fun a b => sortLE a b = true) := by
    have hs := List.sorted_mergeSort sortLE_trans sortLE_total
      (dedupByKey (pm.gatedIssues issues) [])
    have hcap := capPerFile_sublist pm.max_per_file
      ((dedupByKey (pm.gatedIssues issues) []).mergeSort sortLE) (fun _ => 0)
    have htake := List.take_sublist pm.max_comments
      (capPerFile pm.max_per_file
        ((dedupByKey (pm.gatedIssues issues) []).mergeSort sortLE) (fun _ => 0))
    exact List.Pairwise.sublist (htake.trans hcap) hs
  have step3 : (pm.apply_policy issues).mergeSort sortLE = pm.apply_policy issues :=
    List.mergeSort_of_sorted hpair
  have hcount : ∀ p, pathCount (pm.apply_policy issues) p ≤ pm.max_per_file := by
    intro p
    have h1 := pathCount_sublist
      (List.take_sublist pm.max_comments
        (capPerFile pm.max_per_file
          ((dedupByKey (pm.gatedIssues issues) []).mergeSort sortLE) (fun _ => 0))) p
    have h2 := pathCount_capPerFile_le pm.max_per_file
      ((dedupByKey (pm.gatedIssues issues) []).mergeSort sortLE) (fun _ => 0) p
    exact le_trans h1 (by simpa using h2)
  have step4 : capPerFile pm.max_per_file (pm.apply_policy issues) (fun _ => 0)
      = pm.apply_policy issues := by
    refine capPerFile_eq_self _ _ ?_
    intro p
    simpa using hcount p
  have step5 : (pm.apply_policy issues).take pm.max_comments = pm.apply_policy issues := by
    refine List.take_of_length_le ?_
    exact List.length_take_le _ _
  show (capPerFile pm.max_per_file
      ((dedupByKey (pm.gatedIssues (pm.apply_policy issues)) []).mergeSort sortLE)
      (fun _ => 0)).take pm.max_comments = pm.apply_policy issues
  rw [step1, step2, step3, step4, step5]

/-- Characterization of the gate verdict. -/
theorem passesGates_true_iff (pm : PolicyManager) (i : Issue) :
    pm.passesGates i = true ↔
      pm.min_confidence i.severity ≤ i.confidence ∧
      (∃ ev, i.evidence = some ev ∧ ev.excerpt ≠ "") ∧
      pyStrip i.title ≠ "" ∧ pyStrip i.message ≠ "" ∧
      ((i.severity = .blocker ∨ i.severity = .important) →
        8 ≤ (pyStrip (i.suggestion.getD "")).length) := by
  unfold PolicyManager.passesGates
  split_ifs with h1 h2 h3 h4
  · simp only [Bool.false_eq_true, false_iff]
    rintro ⟨hc, -⟩
    exact absurd hc (not_le.2 h1)
  · simp only [Bool.false_eq_true, false_iff]
    rintro ⟨-, ⟨ev, hev, hne⟩, -⟩
    rw [hev] at h2
    exact hne (by simpa using h2)
  · simp only [Bool.false_eq_true, false_iff]
    rintro ⟨-, -, ht, hm, -⟩
    rcases Bool.or_eq_true_iff.1 h3 with h | h
    · exact ht (by simpa using h)
    · exact hm (by simpa using h)
  · rw [not_lt] at h1
    simp only [decide_eq_true_eq]
    constructor
    · intro hlen
      refine ⟨h1, ?_, ?_, ?_, fun _ => hlen⟩
      · rcases hev : i.evidence with _ | ev
        · rw [hev] at h2; exact absurd (by simp) h2
        · rw [hev] at h2; exact ⟨ev, rfl, by simpa using h2⟩
      · intro ht; exact h3 (by simp [ht])
      · intro hm; exact h3 (by simp [hm])
    · rintro ⟨-, -, -, -, hsug⟩
      exact hsug (by simpa using h4)
  · rw [not_lt] at h1
    simp only [true_iff]
    refine ⟨h1, ?_, ?_, ?_, ?_⟩
    · rcases hev : i.evidence with _ | ev
      · rw [hev] at h2; exact absurd (by simp) h2
      · rw [hev] at h2; exact ⟨ev, rfl, by simpa using h2⟩
    · intro ht; exact h3 (by simp [ht])
    · intro hm; exact h3 (by simp [hm])
    · intro hsev
      exact absurd (by simpa using hsev) h4

/-- An issue passing every gate of the default policy, used to witness the
gate and deduplication theorems. -/
def goodIssue : Issue :=
  { id := "good", severity := .important, category := .bug,
    title := "Bug title", message := "Something is wrong", path := "a.py",
    line_start := 3, line_end := 4,
    evidence := some ⟨.diff, "a.py:3", "+x = 1"⟩,
    suggestion := some "use parameterized queries",
    confidence := mkRat 95 100 }

/-- A second gated issue sharing `goodIssue`'s semantic key (same path,
lines and severity, title equal after strip/lower) but with a different
id. -/
def dupIssue : Issue :=
  { id := "dup", severity := .important, category := .security,
    title := "Bug title ", message := "Duplicate report", path := "a.py",
    line_start := 3, line_end := 4,
    evidence := some ⟨.diff, "a.py:3", "+x = 2"⟩,
    suggestion := some "deduplicate this finding",
    confidence := mkRat 9 10 }

/-- The Scenario C candidate: severity IMPORTANT, confidence 0.95,
non-empty evidence, but a suggestion of length 3. -/
def scenarioCIssue : Issue :=
  { id := "scenario-c", severity := .important, category := .bug,
    title := "Scenario C", message := "Important finding", path := "a.py",
    line_start := 1, line_end := 1,
    evidence := some ⟨.diff, "a.py:1", "+code"⟩,
    suggestion := some "fix",
    confidence := mkRat 95 100 }

/-- The Scenario C candidate is rejected by the suggestion-length gate of
every PolicyManager (its threshold check may pass or fail, but the
remaining gates are decided by the candidate alone). -/
theorem scenarioCIssue_gated_out (pm : PolicyManager) :
    pm.passesGates scenarioCIssue = false := by
  unfold PolicyManager.passesGates
  split
  · rfl
  · decide

/-- C2: every issue in `apply_policy`'s output passes all four gates
(confidence at or above the per-severity threshold, evidence present with
a non-empty excerpt, title and message non-blank after stripping, and for
BLOCKER/IMPORTANT a suggestion of stripped length at least 8); and the
Scenario C candidate (IMPORTANT, confidence 0.95, non-empty evidence,
suggestion of length 3) never appears in the output of any PolicyManager
on any input. -/
theorem apply_policy_output_gated :
    (∀ (pm : PolicyManager) (issues : List Issue),
      ∀ i ∈ pm.apply_policy issues,
        pm.min_confidence i.severity ≤ i.confidence ∧
        (∃ ev, i.evidence = some ev ∧ ev.excerpt ≠ "") ∧
        pyStrip i.title ≠ "" ∧ pyStrip i.message ≠ "" ∧
        ((i.severity = .blocker ∨ i.severity = .important) →
          8 ≤ (pyStrip (i.suggestion.getD "")).length)) ∧
    (∀ (pm : PolicyManager) (issues : List Issue),
      scenarioCIssue ∉ pm.apply_policy issues) := by
  constructor
  · intro pm issues i hi
    exact (passesGates_true_iff pm i).1
      (mem_gatedIssues_passes (mem_apply_policy_gated hi))
  · intro pm issues hmem
    have hp := mem_gatedIssues_passes (mem_apply_policy_gated hmem)
    rw [scenarioCIssue_gated_out pm] at hp
    exact Bool.false_ne_true hp

/-- Witness for C2 at concrete inputs: the gated `goodIssue` is in the
default policy output of `[goodIssue]` and satisfies the threshold gate,
and the Scenario C candidate is dropped from its own singleton input. -/
theorem apply_policy_output_gated_witness :
    defaultPolicyManager.min_confidence (withFingerprint goodIssue).severity
      ≤ (withFingerprint goodIssue).confidence ∧
    scenarioCIssue ∉ defaultPolicyManager.apply_policy [scenarioCIssue] := by
  have heval : defaultPolicyManager.apply_policy [goodIssue]
      = [withFingerprint goodIssue] := by
    unfold PolicyManager.apply_policy
    norm_num [PolicyManager.gatedIssues, List.filter, dedupByKey, capPerFile]
    decide
  have hmem : withFingerprint goodIssue ∈ defaultPolicyManager.apply_policy [goodIssue] := by
    rw [heval]
    exact List.mem_singleton.2 rfl
  exact ⟨(apply_policy_output_gated.1 defaultPolicyManager [goodIssue] _ hmem).1,
    apply_policy_output_gated.2 defaultPolicyManager [scenarioCIssue]⟩

/-- C3: no two issues of `apply_policy`'s output share the semantic key
(path, line_start, line_end, severity value, lower-cased stripped title),
and every output issue is the first gated input issue (in input order)
bearing its key — the key does not involve the issue id. -/
theorem apply_policy_dedup_by_key :
    (∀ (pm : PolicyManager) (issues : List Issue),
      ((pm.apply_policy issues).map semanticKey).Nodup) ∧
    (∀ (pm : PolicyManager) (issues : List Issue),
      ∀ i ∈ pm.apply_policy issues,
        ∃ pre post, pm.gatedIssues issues = pre ++ i :: post ∧
          ∀ j ∈ pre, semanticKey j ≠ semanticKey i) := by
  constructor
  · exact apply_policy_keys_nodup
  · intro pm issues i hi
    unfold PolicyManager.apply_policy at hi
    have h1 := (List.take_sublist _ _).subset hi
    have h2 := (capPerFile_sublist _ _ _).subset h1
    have h3 := List.mem_mergeSort.1 h2
    exact (mem_dedupByKey h3).2

/-- Witness for C3 at concrete inputs: `goodIssue` and `dupIssue` share a
semantic key but differ in id; only the first survives, it is the head of
the gated list, and the output keys are distinct. -/
theorem apply_policy_dedup_by_key_witness :
    ((defaultPolicyManager.apply_policy [goodIssue, dupIssue]).map semanticKey).Nodup ∧
    (∃ pre post,
      defaultPolicyManager.gatedIssues [goodIssue, dupIssue]
        = pre ++ withFingerprint goodIssue :: post ∧
      ∀ j ∈ pre, semanticKey j ≠ semanticKey (withFingerprint goodIssue)) := by
  have heval : defaultPolicyManager.apply_policy [goodIssue, dupIssue]
      = [withFingerprint goodIssue] := by
    unfold PolicyManager.apply_policy
    norm_num [PolicyManager.gatedIssues, List.filter, dedupByKey, capPerFile]
    have h : semanticKey (withFingerprint dupIssue) = semanticKey (withFingerprint goodIssue) := by
      decide
    rw [if_pos h]
    norm_num
    decide
  have hmem : withFingerprint goodIssue
      ∈ defaultPolicyManager.apply_policy [goodIssue, dupIssue] := by
    rw [heval]
    exact List.mem_singleton.2 rfl
  exact ⟨apply_policy_dedup_by_key.1 defaultPolicyManager [goodIssue, dupIssue],
    apply_policy_dedup_by_key.2 defaultPolicyManager [goodIssue, dupIssue] _ hmem⟩

/-! ## Error taxonomy and retry (src/review/llm.py) -/

/-- Exception taxonomy seen by the retry wrapper and the classifier:
`openai.RateLimitError`, the three other retryable openai errors,
tenacity's `RetryError` wrapper (which carries the last attempt's
exception), and any other exception. -/
inductive Exc where
  | rateLimitError
  | apiConnectionError
  | apiTimeoutError
  | internalServerError
  | retryError (lastAttempt : Exc)
  | otherError (message : String)
deriving DecidableEq, Repr

/-- Classifier `is_rate_limit_error` (llm.py lines 36-45): true on a
direct `RateLimitError`, and on a `RetryError` whose last attempt's
exception is a `RateLimitError`; false otherwise (the unwrapping is one
level deep, exactly as `exc.last_attempt.exception()` is). -/
def is_rate_limit_error : Exc → Bool
  | .rateLimitError => true
  | .retryError last =>
    match last with
    | .rateLimitError => true
    | _ => false
  | _ => false

/-- The retryable exception types of the `@retry` decorator on
`get_completion` (llm.py lines 152-160): rate limit, connection failure,
timeout, server error. -/
def retryable : Exc → Bool
  | .rateLimitError => true
  | .apiConnectionError => true
  | .apiTimeoutError => true
  | .internalServerError => true
  | _ => false

/-- Model of the tenacity retry loop around `get_completion` (llm.py
lines 152-190) with `stop=stop_after_attempt(maxAttempts)` and
`reraise=True`.  `attempt i` is the outcome of the i-th underlying
request (0-based); `remaining` is the number of attempts still allowed.
A failed attempt is retried only when its exception is retryable and
another attempt remains; otherwise the exception is re-raised.  With
`reraise=True`, exhaustion re-raises the last exception itself, not a
`RetryError` wrapper. -/
def runRetry (attempt : Nat → Except Exc String) : Nat → Nat → Except Exc String
  | _, 0 => .error (.otherError "no attempts configured")
  | i, remaining + 1 =>
    match attempt i with
    | .ok s => .ok s
    | .error e =>
      if retryable e = true ∧ 0 < remaining then runRetry attempt (i + 1) remaining
      else .error e

/-- `LLMClient.get_completion` as seen by callers: the attempt oracle run
under the decorator's `stop_after_attempt(3)`. -/
def get_completion (attempt : Nat → Except Exc String) : Except Exc String :=
  runRetry attempt 0 3

/-! ## Triage failure handling (src/review/analyzer.py) -/

/-- DiffHunk model from `src/domain.py`. -/
structure DiffHunk where
  header : String
  lines : List String
  old_start : Int
  new_start : Int
  old_lines : Int
  new_lines : Int
deriving DecidableEq, Repr

/-- File status literal from `src/domain.py`. -/
inductive FileStatus where
  | added
  | modified
  | deleted
  | renamed
deriving DecidableEq, Repr

/-- ChangedFile model from `src/domain.py`. -/
structure ChangedFile where
  path : String
  original_path : Option String := none
  status : FileStatus
  language : Option String := none
  hunks : List DiffHunk := []
  additions : Int := 0
  deletions : Int := 0
  is_generated : Bool := false
  is_vendor : Bool := false
deriving DecidableEq, Repr

/-- FilterResult from `src/filters/filter.py`. -/
structure FilterResult where
  files_to_review : List ChangedFile
  excluded_files : List ChangedFile
  risk_score : Int
  risk_factors : List String

/-- TriageBudget enum from `src/domain.py`. -/
inductive TriageBudget where
  | low
  | normal
  | high
deriving DecidableEq, Repr

/-- The string value of a `TriageBudget` member. -/
def TriageBudget.value : TriageBudget → String
  | .low => "low"
  | .normal => "normal"
  | .high => "high"

/-- Shape of the dict returned by `ReviewAnalyzer.triage`: the rate-limit
branch populates all four keys, while the request-error fallback returns
a dict with only `files_to_review`. -/
structure TriageOutput where
  files_to_review : List String
  focus_areas : Option (List String) := none
  budget : Option String := none
  summary : Option String := none
deriving DecidableEq, Repr

/-- The fixed explanatory summary of the triage rate-limit branch
(analyzer.py lines 209-212). -/
def rateLimitTriageSummary : String :=
  "LLM rate limit reached. Focused review skipped. "
    ++ "Retry later or increase model quota."

/-- The exception handler of `ReviewAnalyzer.triage` (analyzer.py lines
202-216): the branch taken when the completion call raises `e`.  A
rate-limit classification yields the synthesized skip plan (empty file
list, empty focus areas, budget low, fixed summary); any other exception
falls back to reviewing every file of `filter_result.files_to_review`. -/
def triageOnError (filter_result : FilterResult) (e : Exc) : TriageOutput :=
  if is_rate_limit_error e then
    { files_to_review := [],
      focus_areas := some [],
      budget := some TriageBudget.low.value,
      summary := some rateLimitTriageSummary }
  else
    { files_to_review := filter_result.files_to_review.map (·.path) }

/-- C4: triage failure handling is asymmetric.  A rate-limit-classified
completion error yields the plan with an empty `files_to_review`, budget
`"low"` and the fixed explanatory summary; any other completion error
yields a plan whose `files_to_review` is exactly the path of every file
in `filter_result.files_to_review`. -/
theorem triage_failure_asymmetry :
    (∀ (fr : FilterResult) (e : Exc), is_rate_limit_error e = true →
      triageOnError fr e =
        { files_to_review := [], focus_areas := some [],
          budget := some "low", summary := some rateLimitTriageSummary }) ∧
    (∀ (fr : FilterResult) (e : Exc), is_rate_limit_error e = false →
      triageOnError fr e =
        { files_to_review := fr.files_to_review.map (·.path),
          focus_areas := none, budget := none, summary := none }) := by
  constructor
  · intro fr e he
    unfold triageOnError
    rw [if_pos he]
    rfl
  · intro fr e he
    unfold triageOnError
    rw [if_neg (by simp [he])]

/-- Witness for C4 at concrete inputs: a one-file FilterResult under a
direct rate-limit error and under a non-rate-limit error. -/
theorem triage_failure_asymmetry_witness :
    triageOnError
        ⟨[{ path := "a.py", status := .modified }], [], 0, []⟩ .rateLimitError =
      { files_to_review := [], focus_areas := some [],
        budget := some "low", summary := some rateLimitTriageSummary } ∧
    triageOnError
        ⟨[{ path := "a.py", status := .modified }], [], 0, []⟩ (.otherError "boom") =
      { files_to_review := ["a.py"], focus_areas := none,
        budget := none, summary := none } := by
  refine ⟨triage_failure_asymmetry.1 _ _ rfl, ?_⟩
  have h := triage_failure_asymmetry.2
    ⟨[{ path := "a.py", status := .modified }], [], 0, []⟩ (.otherError "boom") rfl
  simpa using h

/-- C5 counterexample: with `reraise=True`, exhausting the three attempts
on a rate-limit error re-raises the rate-limit error itself, not a
retry-exhaustion (`RetryError`) wrapper as the claim states. -/
theorem get_completion_exhaustion_not_wrapped :
    get_completion (fun _ => .error .rateLimitError)
      ≠ .error (.retryError .rateLimitError) := by
  intro h
  have heq : get_completion (fun _ => .error .rateLimitError)
      = .error .rateLimitError := rfl
  rw [heq] at h
  simp at h

/-- C5 (amended): at most 3 attempts are made and only retryable errors
(rate limit, connection, timeout, server) are retried; on exhaustion the
last error is re-raised itself (unwrapped, because of `reraise=True`);
a non-retryable error is re-raised immediately; and the classifier
`is_rate_limit_error` is true exactly on a direct rate-limit error or a
retry-exhaustion wrapper whose inner (last-attempt) error is a rate-limit
error, and false on every other error. -/
theorem retry_and_classifier_behavior :
    (∀ (attempt : Nat → Except Exc String) (e0 e1 e2 : Exc),
      attempt 0 = .error e0 → retryable e0 = true →
      attempt 1 = .error e1 → retryable e1 = true →
      attempt 2 = .error e2 →
      get_completion attempt = .error e2) ∧
    (∀ (attempt : Nat → Except Exc String) (e : Exc),
      attempt 0 = .error e → retryable e = false →
      get_completion attempt = .error e) ∧
    (∀ e : Exc, is_rate_limit_error e = true ↔
      (e = .rateLimitError ∨ e = .retryError .rateLimitError)) := by
  refine ⟨?_, ?_, ?_⟩
  · intro attempt e0 e1 e2 h0 hr0 h1 hr1 h2
    simp [get_completion, runRetry, h0, h1, h2, hr0, hr1]
  · intro attempt e h0 hr
    simp [get_completion, runRetry, h0, hr]
  · intro e
    cases e with
    | retryError last => cases last <;> simp [is_rate_limit_error]
    | _ => simp [is_rate_limit_error]

/-- Witness for C5's amended theorem at concrete attempt oracles. -/
theorem retry_and_classifier_behavior_witness :
    get_completion (fun _ => .error .apiTimeoutError) = .error .apiTimeoutError ∧
    get_completion (fun _ => .error (.otherError "auth")) = .error (.otherError "auth") ∧
    is_rate_limit_error (.retryError .rateLimitError) = true := by
  refine ⟨retry_and_classifier_behavior.1 _ .apiTimeoutError .apiTimeoutError
      .apiTimeoutError rfl rfl rfl rfl rfl,
    retry_and_classifier_behavior.2.1 _ (.otherError "auth") rfl rfl,
    (retry_and_classifier_behavior.2.2 (.retryError .rateLimitError)).2 (Or.inr rfl)⟩

/-! ## The per-file review loop (src/main.py) -/

/-- The focused-review loop of the `review` command (main.py lines
153-175): files are visited in `filter_result.files_to_review` order; a
file is reviewed only when its path is in the triage plan's file list; a
reviewed file's issues extend the accumulator and the reviewed counter is
bumped; a rate-limit-classified exception stops the loop immediately,
keeping the issues accumulated so far and raising the run flag; any other
exception propagates.  `reviewFile` is the outcome of
`analyzer.review_file` for each file.  The value is (accumulated issues,
files reviewed, rate-limit flag). -/
def fileLoop (selected : List String)
    (reviewFile : ChangedFile → Except Exc (List Issue)) :
    List ChangedFile → List Issue → Nat → Except Exc (List Issue × Nat × Bool)
  | [], acc, n => .ok (acc, n, false)
  | f :: rest, acc, n =>
    if f.path ∈ selected then
      match reviewFile f with
      | .ok fileIssues =>
        fileLoop selected reviewFile rest (acc ++ fileIssues) (n + 1)
      | .error e =>
        if is_rate_limit_error e then .ok (acc, n, true)
        else .error e
    else fileLoop selected reviewFile rest acc n

/-- The run-level result fields assembled by `review` (main.py lines
208-216; `risk_score` is threaded through unchanged and omitted here). -/
structure ReviewRunResult where
  summary : String
  issues : List Issue
  files_analyzed : Nat
  decision : String
deriving DecidableEq, Repr

/-- The decision loop of `review` (main.py lines 184-190): WARN when any
BLOCKER or IMPORTANT issue is present, PASS otherwise. -/
def runDecision (finalIssues : List Issue) : String :=
  if finalIssues.any (fun i => i.severity = .blocker || i.severity = .important)
  then "WARN" else "PASS"

/-- The deterministic summary template of `review` (main.py lines
198-204): the stripped triage summary when present and non-blank,
otherwise "Reviewed {n} files. Found {k} issues.". -/
def reviewRunSummaryBase (triage_summary : Option String) (n k : Nat) : String :=
  match triage_summary with
  | some s =>
    if pyStrip s = ""
    then "Reviewed " ++ toString n ++ " files. Found " ++ toString k ++ " issues."
    else pyStrip s
  | none => "Reviewed " ++ toString n ++ " files. Found " ++ toString k ++ " issues."

/-- The run-level notice appended when the loop was cut short by a rate
limit (main.py lines 205-206). -/
def partialReviewNotice : String :=
  " Partial review only: stopped early due to LLM rate limits."

/-- The review run from the focused-review loop through policy and result
assembly (main.py lines 153-216): run the file loop, apply policy to the
accumulated issues, compute the decision, and append the partial-review
notice to the summary when the rate-limit flag was raised. -/
def reviewRun (pm : PolicyManager) (files : List ChangedFile)
    (selected : List String) (triage_summary : Option String)
    (reviewFile : ChangedFile → Except Exc (List Issue)) :
    Except Exc ReviewRunResult :=
  match fileLoop selected reviewFile files [] 0 with
  | .error e => .error e
  | .ok (allIssues, n, rateLimited) =>
    .ok { summary :=
            reviewRunSummaryBase triage_summary n (pm.apply_policy allIssues).length
              ++ (if rateLimited then partialReviewNotice else ""),
          issues := pm.apply_policy allIssues,
          files_analyzed := n,
          decision := runDecision (pm.apply_policy allIssues) }

/-- Running the loop over a block of files that all review successfully
accumulates exactly the issues of the selected ones, in order. -/
theorem fileLoop_append_ok (selected : List String)
    (reviewFile : ChangedFile → Except Exc (List Issue))
    (issuesOf : ChangedFile → List Issue) :
    ∀ (pre : List ChangedFile),
      (∀ g ∈ pre, g.path ∈ selected → reviewFile g = .ok (issuesOf g)) →
      ∀ (rest : List ChangedFile) (acc : List Issue) (n : Nat),
        fileLoop selected reviewFile (pre ++ rest) acc n =
          fileLoop selected reviewFile rest
            (acc ++ (pre.filter (fun g => g.path ∈ selected)).flatMap issuesOf)
            (n + (pre.filter (fun g => g.path ∈ selected)).length) := by
  intro pre
  induction pre with
  | nil => intro _ rest acc n; simp
  | cons g pre' ih =>
    intro hok rest acc n
    by_cases hsel : g.path ∈ selected
    · have hg := hok g (by simp) hsel
      rw [List.cons_append]
      simp only [fileLoop, if_pos hsel, hg]
      rw [ih (fun x hx => hok x (by simp [hx])) rest (acc ++ issuesOf g) (n + 1)]
      rw [List.filter_cons_of_pos (by simpa using hsel)]
      simp [List.append_assoc]
      congr 1
      omega
    · rw [List.cons_append]
      simp only [fileLoop, if_neg hsel]
      rw [ih (fun x hx => hok x (by simp [hx])) rest acc n]
      rw [List.filter_cons_of_neg (by simpa using hsel)]

/-- C6: when the review of a selected file raises a rate-limit-classified
error, the loop stops immediately and the run result holds exactly the
issues accumulated from the selected files before it (passed through
policy), the count of files reviewed before the interruption, and the
partial-review notice appended to the summary. -/
theorem rate_limit_stops_file_loop
    (pm : PolicyManager) (pre : List ChangedFile) (f : ChangedFile)
    (post : List ChangedFile) (selected : List String)
    (triage_summary : Option String)
    (reviewFile : ChangedFile → Except Exc (List Issue))
    (issuesOf : ChangedFile → List Issue) (e : Exc)
    (hpre : ∀ g ∈ pre, g.path ∈ selected → reviewFile g = .ok (issuesOf g))
    (hf : f.path ∈ selected)
    (herr : reviewFile f = .error e)
    (hrl : is_rate_limit_error e = true) :
    reviewRun pm (pre ++ f :: post) selected triage_summary reviewFile =
      .ok { summary :=
              reviewRunSummaryBase triage_summary
                (pre.filter (fun g => g.path ∈ selected)).length
                (pm.apply_policy
                  ((pre.filter (fun g => g.path ∈ selected)).flatMap issuesOf)).length
                ++ partialReviewNotice,
            issues := pm.apply_policy
              ((pre.filter (fun g => g.path ∈ selected)).flatMap issuesOf),
            files_analyzed := (pre.filter (fun g => g.path ∈ selected)).length,
            decision := runDecision
              (pm.apply_policy
                ((pre.filter (fun g => g.path ∈ selected)).flatMap issuesOf)) } := by
  have hloop : fileLoop selected reviewFile (pre ++ f :: post) [] 0 =
      .ok ((pre.filter (fun g => g.path ∈ selected)).flatMap issuesOf,
        (pre.filter (fun g => g.path ∈ selected)).length, true) := by
    rw [fileLoop_append_ok selected reviewFile issuesOf pre hpre (f :: post) [] 0]
    simp only [fileLoop, if_pos hf, herr, hrl]
    simp
  unfold reviewRun
  rw [hloop]
  simp

/-- A changed file with only a path, as the loop reads nothing else. -/
def exChanged (p : String) : ChangedFile :=
  { path := p, status := .modified }

/-- One NIT issue attributed to a path, used as a per-file review
outcome. -/
def exFileIssue (p : String) : Issue :=
  { id := p, severity := .nit, category := .style, title := "t",
    message := "m", path := p, line_start := 1, line_end := 1,
    evidence := some ⟨.diff, p, "+x"⟩, confidence := mkRat 8 10 }

/-- A review oracle that rate-limits on the third file and reviews the
others successfully. -/
def exReviewOutcome (g : ChangedFile) : Except Exc (List Issue) :=
  if g.path = "f3.py" then .error .rateLimitError
  else .ok [exFileIssue g.path]

/-- Witness for C6: five selected files, a rate-limit error on the third;
the run keeps exactly the issues of the first two files. -/
theorem rate_limit_stops_file_loop_witness :
    reviewRun defaultPolicyManager
        [exChanged "f1.py", exChanged "f2.py", exChanged "f3.py",
          exChanged "f4.py", exChanged "f5.py"]
        ["f1.py", "f2.py", "f3.py", "f4.py", "f5.py"] none exReviewOutcome =
      .ok { summary :=
              reviewRunSummaryBase none 2
                (defaultPolicyManager.apply_policy
                  [exFileIssue "f1.py", exFileIssue "f2.py"]).length
                ++ partialReviewNotice,
            issues := defaultPolicyManager.apply_policy
              [exFileIssue "f1.py", exFileIssue "f2.py"],
            files_analyzed := 2,
            decision := runDecision
              (defaultPolicyManager.apply_policy
                [exFileIssue "f1.py", exFileIssue "f2.py"]) } := by
  have h := rate_limit_stops_file_loop defaultPolicyManager
    [exChanged "f1.py", exChanged "f2.py"] (exChanged "f3.py")
    [exChanged "f4.py", exChanged "f5.py"]
    ["f1.py", "f2.py", "f3.py", "f4.py", "f5.py"] none exReviewOutcome
    (fun g => [exFileIssue g.path]) .rateLimitError
    (by intro g hg hsel; fin_cases hg <;> rfl)
    (by simp [exChanged])
    rfl
    rfl
  simpa [exChanged] using h

/-! ## Patch parsing (src/providers/github_provider.py) -/

/-- Numeric value of a digit run. -/
def natOfDigits (ds : List Char) : Nat :=
  ds.foldl (fun n c => n * 10 + (c.toNat - 48)) 0

/-- Consume a non-empty leading digit run (a `\d+` of the hunk-header
regex), returning its value and the rest. -/
def takeDigits (cs : List Char) : Option (Nat × List Char) :=
  if cs.takeWhile Char.isDigit = [] then none
  else some (natOfDigits (cs.takeWhile Char.isDigit), cs.dropWhile Char.isDigit)

/-- Consume the optional comma-length group of the hunk-header regex; a
missing group (including a comma not followed by digits, where the regex
backtracks to the empty alternative) defaults the length to 1 and
consumes nothing. -/
def takeOptLen : List Char → Nat × List Char
  | ',' :: rest =>
    match takeDigits rest with
    | some (n, rest') => (n, rest')
    | none => (1, ',' :: rest)
  | cs => (1, cs)

/-- Match of the hunk-header regex of `_parse_patch`
(github_provider.py line 82): literal "@@ -", old start digits, optional
",len", " +", new start digits, optional ",len", " @@", then anything
(`re.match` anchors only the start).  Returns
(old_start, old_len, new_start, new_len). -/
def matchHunkHeader (line : List Char) : Option (Nat × Nat × Nat × Nat) :=
  match line with
  | '@' :: '@' :: ' ' :: '-' :: rest =>
    match takeDigits rest with
    | none => none
    | some (o, r1) =>
      match takeOptLen r1 with
      | (ol, r2) =>
        match r2 with
        | ' ' :: '+' :: r3 =>
          match takeDigits r3 with
          | none => none
          | some (n, r4) =>
            match takeOptLen r4 with
            | (nl, r5) =>
              match r5 with
              | ' ' :: '@' :: '@' :: _ => some (o, ol, n, nl)
              | _ => none
        | _ => none
  | _ => none

/-- Python `patch.split("\n")` on the character list (structural, so that
it computes by kernel reduction). -/
def splitNewlines : List Char → List (List Char)
  | [] => [[]]
  | '\n' :: rest => [] :: splitNewlines rest
  | c :: rest =>
    match splitNewlines rest with
    | [] => [[c]]
    | l :: ls => (c :: l) :: ls

/-- The line loop of `_parse_patch` (github_provider.py lines 84-110):
the state is the currently open hunk with its collected body lines; a
header line closes the open hunk (if any) and opens a new one with an
empty body; any other line is appended to the open hunk's body and
discarded when no hunk is open; at end of input the open hunk (if any)
is closed.  A hunk closed with an empty body is appended like any
other. -/
def parseLoop : List (List Char) → Option (DiffHunk × List (List Char)) → List DiffHunk
  | [], none => []
  | [], some (h, cur) => [{ h with lines := cur.map (fun l => (⟨l⟩ : String)) }]
  | line :: rest, st =>
    match matchHunkHeader line with
    | some (o, ol, n, nl) =>
      match st with
      | some (h, cur) =>
        { h with lines := cur.map (fun l => (⟨l⟩ : String)) } ::
          parseLoop rest (some
            ({ header := ⟨line⟩, lines := [], old_start := (o : Int),
               new_start := (n : Int), old_lines := (ol : Int),
               new_lines := (nl : Int) }, []))
      | none =>
        parseLoop rest (some
          ({ header := ⟨line⟩, lines := [], old_start := (o : Int),
             new_start := (n : Int), old_lines := (ol : Int),
             new_lines := (nl : Int) }, []))
    | none =>
      match st with
      | some (h, cur) => parseLoop rest (some (h, cur ++ [line]))
      | none => parseLoop rest none

/-- `GitHubProvider._parse_patch` (github_provider.py lines 70-112): an
empty patch yields no hunks; otherwise the patch is split on newlines and
scanned by the line loop.  The function is total: malformed input cannot
raise. -/
def parsePatch (patch : String) : List DiffHunk :=
  if patch = "" then [] else parseLoop (splitNewlines patch.data) none

/-- Length invariant of the parse loop: one output hunk per header line,
plus the open hunk of the incoming state. -/
theorem parseLoop_length :
    ∀ (ls : List (List Char)) (st : Option (DiffHunk × List (List Char))),
      (parseLoop ls st).length
        = (ls.filter (fun l => (matchHunkHeader l).isSome)).length
          + (match st with | none => 0 | some _ => 1) := by
  intro ls
  induction ls with
  | nil => intro st; cases st <;> simp [parseLoop]
  | cons line rest ih =>
    intro st
    rcases hm : matchHunkHeader line with _ | quad
    · rcases st with _ | ⟨h, cur⟩ <;>
        simp [parseLoop, hm, ih, List.filter_cons]
    · rcases st with _ | ⟨h, cur⟩ <;>
        simp [parseLoop, hm, ih, List.filter_cons]

/-- Prefix lines that match no header are discarded by the loop when no
hunk is open. -/
theorem parseLoop_drop_junk :
    ∀ (junk rest : List (List Char)),
      (∀ l ∈ junk, matchHunkHeader l = none) →
      parseLoop (junk ++ rest) none = parseLoop rest none := by
  intro junk
  induction junk with
  | nil => intro rest _; rfl
  | cons l junk' ih =>
    intro rest hnone
    rw [List.cons_append]
    simp only [parseLoop, hnone l (by simp)]
    exact ih rest (fun x hx => hnone x (by simp [hx]))

/-- C9 counterexample: the single-header patch `"@@ -1 +1 @@"` parses to
one hunk whose list of lines is empty — a zero-line hunk is retained, not
dropped. -/
theorem parse_patch_keeps_zero_line_hunk :
    ∃ h ∈ parsePatch "@@ -1 +1 @@", h.lines = [] := by
  decide

/-- C9 (amended): `parsePatch` is a total function (so it never raises);
empty input yields the empty sequence; input in which no line matches the
hunk-header pattern (malformed input) yields the empty sequence;
non-header lines preceding the first hunk header are discarded; and the
returned sequence has exactly one hunk per header line — a hunk with zero
body lines (a header followed immediately by another header or by end of
input) is retained like any other, not dropped. -/
theorem parse_patch_behavior :
    parsePatch "" = [] ∧
    (∀ (patch : String),
      (∀ l ∈ splitNewlines patch.data, matchHunkHeader l = none) →
      parsePatch patch = []) ∧
    (∀ (junk rest : List (List Char)),
      (∀ l ∈ junk, matchHunkHeader l = none) →
      parseLoop (junk ++ rest) none = parseLoop rest none) ∧
    (∀ (patch : String),
      (parsePatch patch).length
        = ((splitNewlines patch.data).filter
            (fun l => (matchHunkHeader l).isSome)).length) := by
  refine ⟨rfl, ?_, parseLoop_drop_junk, ?_⟩
  · intro patch hnone
    by_cases hp : patch = ""
    · simp [parsePatch, hp]
    · unfold parsePatch
      rw [if_neg hp]
      have h := parseLoop_drop_junk (splitNewlines patch.data) [] hnone
      simpa using h
  · intro patch
    by_cases hp : patch = ""
    · subst hp
      have : splitNewlines ("" : String).data = [[]] := rfl
      rw [this]
      simp [parsePatch]
      decide
    · unfold parsePatch
      rw [if_neg hp]
      have h := parseLoop_length (splitNewlines patch.data) none
      simpa using h

/-- Witness for C9's amended theorem at concrete inputs: a no-header
patch parses to nothing, junk before the first header is discarded, and
the two-header patch yields exactly two hunks. -/
theorem parse_patch_behavior_witness :
    parsePatch "no headers\nat all" = [] ∧
    parseLoop ("junk".data :: ["@@ -1 +1 @@".data]) none
      = parseLoop ["@@ -1 +1 @@".data] none ∧
    (parsePatch "@@ -1 +1 @@\n+x\n@@ -2 +2 @@").length = 2 := by
  refine ⟨parse_patch_behavior.2.1 "no headers\nat all" (by decide), ?_, ?_⟩
  · exact parse_patch_behavior.2.2.1 ["junk".data] ["@@ -1 +1 @@".data] (by decide)
  · have h := parse_patch_behavior.2.2.2 "@@ -1 +1 @@\n+x\n@@ -2 +2 @@"
    rw [h]
    decide

/-! ## Diff excerpt extraction (src/review/analyzer.py) -/

/-- Python slicing `s[:n]` by code points. -/
def pySlice (s : String) (n : Nat) : String :=
  ⟨s.data.take n⟩

/-- Python `"\n".join(lines)` (structural, so that it computes by kernel
reduction). -/
def joinLines : List String → String
  | [] => ""
  | [l] => l
  | l :: rest => l ++ "\n" ++ joinLines rest

/-- The excerpt bounds of `ReviewAnalyzer.__init__` (analyzer.py lines
27-39), holding the clamped values (`max(32, ·)` for the per-line bound,
at least the per-line bound for the total, `max(1, ·)` for the fallback
line count); the defaults are 200/500/5. -/
structure AnalyzerConfig where
  line_excerpt_max_chars : Nat := 200
  excerpt_max_chars : Nat := 500
  fallback_hunk_lines : Nat := 5
deriving Repr

/-- An AnalyzerConfig with all defaults. -/
def defaultAnalyzerConfig : AnalyzerConfig := {}

/-- The per-hunk inner loop of `_extract_diff_excerpt` (analyzer.py lines
53-62): walk the hunk's raw lines with the running new-file line counter,
which starts at the hunk's `new_start` and increments on added ("+") and
context (" ") lines only; a line whose counter falls in the target range
is collected (truncated to the per-line bound); removed ("-") and other
lines are skipped without incrementing. -/
def matchLines (c : AnalyzerConfig) (ts te : Int) :
    List String → Int → List String
  | [], _ => []
  | l :: rest, newLine =>
    if pySlice l 1 = "+" || pySlice l 1 = " " then
      (if ts ≤ newLine ∧ newLine ≤ te
       then [pySlice l c.line_excerpt_max_chars] else [])
        ++ matchLines c ts te rest (newLine + 1)
    else matchLines c ts te rest newLine

/-- `ReviewAnalyzer._extract_diff_excerpt` (analyzer.py lines 41-75):
clamp the target range, collect matching lines across all hunks, and
join/truncate them; when nothing matched, fall back to the first hunk's
first few lines, and to a fixed placeholder when that is blank or there
are no hunks. -/
def extractDiffExcerpt (c : AnalyzerConfig) (file : ChangedFile)
    (line_start line_end : Int) : String :=
  match file.hunks.flatMap
      (fun h => matchLines c (max 1 line_start) (max (max 1 line_start) line_end)
        h.lines h.new_start) with
  | [] =>
    match file.hunks with
    | [] => "See changed diff context."
    | h0 :: _ =>
      if pyStrip (joinLines (h0.lines.take c.fallback_hunk_lines)) = ""
      then "See changed diff context."
      else pySlice (pyStrip (joinLines (h0.lines.take c.fallback_hunk_lines)))
        c.excerpt_max_chars
  | matched => pySlice (joinLines matched) c.excerpt_max_chars

/-- The new-file line numbering of a hunk's raw lines: pairs (new-file
line number, raw line) for the added and context lines, numbered from
`new_start`; removed lines carry no new-file number. -/
def numberNewLines : Int → List String → List (Int × String)
  | _, [] => []
  | n, l :: rest =>
    if pySlice l 1 = "+" || pySlice l 1 = " "
    then (n, l) :: numberNewLines (n + 1) rest
    else numberNewLines n rest

/-- The new-file lines of a hunk, in new-file numbering. -/
def hunkNewLines (h : DiffHunk) : List (Int × String) :=
  numberNewLines h.new_start h.lines

/-- The number of new-file (added or context) lines of a raw line list. -/
def newLineCount (ls : List String) : Nat :=
  (ls.filter (fun l => pySlice l 1 = "+" || pySlice l 1 = " ")).length

/-- The collected lines of one hunk are exactly its new-file lines in the
target range, each truncated to the per-line bound. -/
theorem matchLines_eq_filtered (c : AnalyzerConfig) (ts te : Int) :
    ∀ (ls : List String) (n : Int),
      matchLines c ts te ls n
        = ((numberNewLines n ls).filter
            (fun p => decide (ts ≤ p.1) && decide (p.1 ≤ te))).map
          (fun p => pySlice p.2 c.line_excerpt_max_chars) := by
  intro ls
  induction ls with
  | nil => intro n; rfl
  | cons l rest ih =>
    intro n
    by_cases hl : pySlice l 1 = "+" || pySlice l 1 = " "
    · simp only [matchLines, numberNewLines, if_pos hl, ih]
      by_cases hr : ts ≤ n ∧ n ≤ te
      · rw [if_pos hr, List.filter_cons_of_pos (by simp [hr.1, hr.2])]
        simp
      · rw [if_neg hr, List.filter_cons_of_neg ?hneg]
        · simp
        · simp only [Bool.and_eq_true, decide_eq_true_eq]
          intro hc
          exact hr ⟨hc.1, hc.2⟩
    · simp only [matchLines, numberNewLines, if_neg hl, ih]

/-- A hunk whose new-file interval misses the target range contributes no
collected lines. -/
theorem matchLines_disjoint (c : AnalyzerConfig) (ts te : Int) :
    ∀ (ls : List String) (n : Int),
      (te < n ∨ n + (newLineCount ls : Int) ≤ ts) →
      matchLines c ts te ls n = [] := by
  intro ls
  induction ls with
  | nil => intro n _; rfl
  | cons l rest ih =>
    intro n hdisj
    by_cases hl : pySlice l 1 = "+" || pySlice l 1 = " "
    · have hcount : newLineCount (l :: rest) = newLineCount rest + 1 := by
        simp [newLineCount, List.filter_cons, hl]
      rw [hcount] at hdisj
      simp only [matchLines, if_pos hl]
      rw [if_neg ?hout, ih (n + 1) ?hrec]
      case hout =>
        rintro ⟨hts, hte⟩
        rcases hdisj with h | h
        · omega
        · omega
      case hrec =>
        rcases hdisj with h | h
        · left; omega
        · right; push_cast at h ⊢; omega
      simp
    · have hcount : newLineCount (l :: rest) = newLineCount rest := by
        simp [newLineCount, List.filter_cons, hl]
      rw [hcount] at hdisj
      simp only [matchLines, if_neg hl]
      exact ih n hdisj

/-- C8: for a target range (1 ≤ line_start ≤ line_end) lying fully inside
the added lines of one hunk (every in-range new-file line of that hunk is
an added line, at least one exists) while every other hunk's new-file
interval misses the range, and with no truncation in play, the excerpt is
exactly the in-range new-file lines of that hunk — the added lines'
content, in order, with removed lines never included (they carry no
new-file number). -/
theorem extract_diff_excerpt_added_range
    (c : AnalyzerConfig) (file : ChangedFile) (hs1 hs2 : List DiffHunk)
    (h : DiffHunk) (line_start line_end : Int)
    (hhunks : file.hunks = hs1 ++ h :: hs2)
    (h1 : 1 ≤ line_start) (h2 : line_start ≤ line_end)
    (hadded : ∀ p ∈ hunkNewLines h,
      line_start ≤ p.1 → p.1 ≤ line_end → pySlice p.2 1 = "+")
    (hcover : ∃ p ∈ hunkNewLines h, line_start ≤ p.1 ∧ p.1 ≤ line_end)
    (hdisj : ∀ h' ∈ hs1 ++ hs2, line_end < h'.new_start ∨
      h'.new_start + (newLineCount h'.lines : Int) ≤ line_start)
    (hshort : ∀ p ∈ hunkNewLines h,
      line_start ≤ p.1 → p.1 ≤ line_end →
      pySlice p.2 c.line_excerpt_max_chars = p.2)
    (hjoin : pySlice
        (joinLines (((hunkNewLines h).filter
          (fun p => decide (line_start ≤ p.1) && decide (p.1 ≤ line_end))).map
            (fun p => p.2)))
        c.excerpt_max_chars
      = joinLines (((hunkNewLines h).filter
          (fun p => decide (line_start ≤ p.1) && decide (p.1 ≤ line_end))).map
            (fun p => p.2))) :
    extractDiffExcerpt c file line_start line_end
      = joinLines (((hunkNewLines h).filter
          (fun p => decide (line_start ≤ p.1) && decide (p.1 ≤ line_end))).map
            (fun p => p.2)) ∧
    ∀ l ∈ ((hunkNewLines h).filter
        (fun p => decide (line_start ≤ p.1) && decide (p.1 ≤ line_end))).map
          (fun p => p.2), pySlice l 1 = "+" := by
  refine ⟨?_, ?_⟩
  case refine_2 =>
    intro l hl
    obtain ⟨p, hp, rfl⟩ := List.mem_map.1 hl
    have hmem := List.mem_filter.1 hp
    have hrange : line_start ≤ p.1 ∧ p.1 ≤ line_end := by
      have := hmem.2
      simp only [Bool.and_eq_true, decide_eq_true_eq] at this
      exact this
    exact hadded p hmem.1 hrange.1 hrange.2
  have hts : max 1 line_start = line_start := max_eq_right h1
  have hte : max (max 1 line_start) line_end = line_end := by
    rw [hts]; exact max_eq_right h2
  have hmain : matchLines c line_start line_end h.lines h.new_start
      = ((hunkNewLines h).filter
          (fun p => decide (line_start ≤ p.1) && decide (p.1 ≤ line_end))).map
        (fun p => p.2) := by
    rw [matchLines_eq_filtered]
    refine List.map_congr_left ?_
    intro p hp
    have hmem := List.mem_filter.1 hp
    have hrange : line_start ≤ p.1 ∧ p.1 ≤ line_end := by
      have := hmem.2
      simp only [Bool.and_eq_true, decide_eq_true_eq] at this
      exact this
    exact hshort p hmem.1 hrange.1 hrange.2
  have hflat : file.hunks.flatMap
      (fun h' => matchLines c (max 1 line_start) (max (max 1 line_start) line_end)
        h'.lines h'.new_start)
      = ((hunkNewLines h).filter
          (fun p => decide (line_start ≤ p.1) && decide (p.1 ≤ line_end))).map
        (fun p => p.2) := by
    rw [hhunks, hts, max_eq_right h2, List.flatMap_append, List.flatMap_cons]
    have hs1nil : hs1.flatMap
        (fun h' => matchLines c line_start line_end h'.lines h'.new_start) = [] := by
      refine List.flatMap_eq_nil_iff.2 ?_
      intro h' hh'
      exact matchLines_disjoint c line_start line_end h'.lines h'.new_start
        (hdisj h' (by simp [hh']))
    have hs2nil : hs2.flatMap
        (fun h' => matchLines c line_start line_end h'.lines h'.new_start) = [] := by
      refine List.flatMap_eq_nil_iff.2 ?_
      intro h' hh'
      exact matchLines_disjoint c line_start line_end h'.lines h'.new_start
        (hdisj h' (by simp [hh']))
    rw [hs1nil, hs2nil, hmain]
    simp
  have hne : ((hunkNewLines h).filter
      (fun p => decide (line_start ≤ p.1) && decide (p.1 ≤ line_end))).map
        (fun p => p.2) ≠ [] := by
    obtain ⟨p, hp, hr1, hr2⟩ := hcover
    have : p ∈ (hunkNewLines h).filter
        (fun p => decide (line_start ≤ p.1) && decide (p.1 ≤ line_end)) :=
      List.mem_filter.2 ⟨hp, by simp [hr1, hr2]⟩
    exact List.ne_nil_of_mem (List.mem_map_of_mem _ this)
  obtain ⟨x, xs, hxs⟩ : ∃ x xs,
      ((hunkNewLines h).filter
        (fun p => decide (line_start ≤ p.1) && decide (p.1 ≤ line_end))).map
          (fun p => p.2) = x :: xs := by
    rcases htgt : ((hunkNewLines h).filter
        (fun p => decide (line_start ≤ p.1) && decide (p.1 ≤ line_end))).map
          (fun p => p.2) with _ | ⟨x, xs⟩
    · exact absurd htgt hne
    · exact ⟨x, xs, htgt⟩
  unfold extractDiffExcerpt
  rw [hflat]
  rw [hxs] at hjoin ⊢
  exact hjoin

/-- The Scenario A hunk: header `@@ -1,3 +1,4 @@` with one context line,
one removed line and two added lines (what `parsePatch` yields on the
Scenario A patch text). -/
def scenarioAHunk : DiffHunk :=
  { header := "@@ -1,3 +1,4 @@",
    lines := [" line1", "-line2", "+line2_new", "+line3_new"],
    old_start := 1, new_start := 1, old_lines := 3, new_lines := 4 }

/-- A changed file carrying the Scenario A hunk. -/
def scenarioAFile : ChangedFile :=
  { path := "a.py", status := .modified, hunks := [scenarioAHunk] }

/-- Witness for C8 (Scenario A): the Scenario A patch text parses to the
Scenario A hunk, and the excerpt for lines 2-2 is exactly the added line
(so it contains `line2_new`). -/
theorem extract_diff_excerpt_added_range_witness :
    parsePatch "@@ -1,3 +1,4 @@\n line1\n-line2\n+line2_new\n+line3_new"
      = [scenarioAHunk] ∧
    extractDiffExcerpt defaultAnalyzerConfig scenarioAFile 2 2
      = "+" ++ "line2_new" := by
  refine ⟨by decide, ?_⟩
  have h := extract_diff_excerpt_added_range defaultAnalyzerConfig scenarioAFile
    [] [] scenarioAHunk 2 2 rfl (by decide) (by decide)
    (by decide) (by decide) (by simp) (by decide) (by decide)
  rw [h.1]
  decide

/-! ## JSON payload extraction (src/safety/utils.py)

The scanner below works on character lists; `'\x7b'`/`'\x7d'` denote the
curly braces.  Python's `splitlines` is modelled as splitting on `'\n'`
(faithful for inputs without carriage returns or unicode line breaks). -/

/-- Python `"\n".join(chunks)` on character lists. -/
def joinNewlines : List (List Char) → List Char
  | [] => []
  | [l] => l
  | l :: ls => l ++ '\n' :: joinNewlines ls

/-- `SafeJSONParser._strip_markdown_fences` (utils.py lines 56-63):
remove every line whose stripped content starts with a markdown fence
marker, rejoin with newlines, and strip the result. -/
def strip_markdown_fences (cs : List Char) : List Char :=
  pyStripChars (joinNewlines
    ((splitNewlines cs).filter
      (fun l => decide ¬((pyStripChars l).take 3 = "```".data))))

/-- Scanner state of `_extract_first_json_payload`: bracket nesting
depth, whether the scan is inside a quoted string, and whether the
previous character was a backslash inside a string. -/
structure ScanState where
  depth : Int
  inString : Bool
  isEscaped : Bool
deriving DecidableEq, Repr

/-- The initial scanner state. -/
def initScanState : ScanState := ⟨0, false, false⟩

/-- One step of the scanning loop of `_extract_first_json_payload`
(utils.py lines 80-103): inside a string, an escaped character is
consumed, a backslash sets the escape flag, a quote closes the string;
outside, a quote opens a string, the opening bracket increments and the
closing bracket decrements the depth; the step reports whether the loop
returns at this character (closing bracket bringing the depth to zero). -/
def scanChar (opening closing : Char) (st : ScanState) (c : Char) :
    ScanState × Bool :=
  if st.inString then
    if st.isEscaped then ({ st with isEscaped := false }, false)
    else if c = '\\' then ({ st with isEscaped := true }, false)
    else if c = '"' then ({ st with inString := false }, false)
    else (st, false)
  else if c = '"' then ({ st with inString := true }, false)
  else if c = opening then ({ st with depth := st.depth + 1 }, false)
  else if c = closing then
    ({ st with depth := st.depth - 1 }, decide (st.depth - 1 = 0))
  else (st, false)

/-- Index (0-based, counted from the scan start) of the character at
which the scanning loop returns, if any. -/
def findClose (opening closing : Char) : ScanState → List Char → Option Nat
  | _, [] => none
  | st, c :: cs =>
    match scanChar opening closing st c with
    | (st', ret) =>
      if ret then some 0
      else (findClose opening closing st' cs).map (· + 1)

/-- The scanner state after consuming a character list. -/
def scanSteps (opening closing : Char) (st : ScanState) (cs : List Char) : ScanState :=
  cs.foldl (fun s c => (scanChar opening closing s c).1) st

/-- The character class of a payload start (`{` or `[`); the start index
of `_extract_first_json_payload` is the first occurrence of either. -/
def bracketChar (c : Char) : Bool :=
  c = '\x7b' || c = '['

/-- `SafeJSONParser._extract_first_json_payload` (utils.py lines 65-105):
locate the first `{` or `[`; when none exists return the stripped input;
otherwise scan from it and return the stripped prefix up to where the
depth returns to zero, or the stripped suffix from the bracket when the
scan never returns (the Python code indexes `payload[0]`, so the empty
payload branch below is unreachable). -/
def extract_first_json_payload (cs : List Char) : List Char :=
  match cs.findIdx? bracketChar with
  | none => pyStripChars cs
  | some i =>
    match cs.drop i with
    | [] => pyStripChars cs
    | opening :: restPayload =>
      match findClose opening (if opening = '\x7b' then '\x7d' else ']')
          initScanState (opening :: restPayload) with
      | some n => pyStripChars ((opening :: restPayload).take (n + 1))
      | none => pyStripChars (opening :: restPayload)

/-- `SafeJSONParser.clean_json_text` (utils.py lines 107-117): strip the
input, return `""` when blank, otherwise strip markdown fences and
extract the first balanced payload. -/
def clean_json_text (s : String) : String :=
  if pyStripChars s.data = [] then ""
  else ⟨extract_first_json_payload (strip_markdown_fences (pyStripChars s.data))⟩

/-- Splitting a scan at a list boundary: the scan of `xs ++ ys` returns
where the scan of `xs` does, or else continues into `ys` from the state
reached after `xs`, with indices shifted by `xs.length`. -/
theorem findClose_append (opening closing : Char) :
    ∀ (xs ys : List Char) (st : ScanState),
      findClose opening closing st (xs ++ ys)
        = match findClose opening closing st xs with
          | some n => some n
          | none =>
            (findClose opening closing (scanSteps opening closing st xs) ys).map
              (· + xs.length) := by
  intro xs
  induction xs with
  | nil =>
    intro ys st
    simp only [List.nil_append, findClose, scanSteps, List.foldl_nil, List.length_nil]
    rcases findClose opening closing st ys with _ | n <;> simp
  | cons x xs ih =>
    intro ys st
    rw [List.cons_append]
    simp only [findClose]
    rcases hstep : scanChar opening closing st x with ⟨st', ret⟩
    by_cases hret : ret = true
    · simp [hret]
    · have hret' : ret = false := by simpa using hret
      rw [hret']
      rw [if_neg Bool.false_ne_true]
      rw [ih ys st']
      have hsteps : scanSteps opening closing st (x :: xs)
          = scanSteps opening closing st' xs := by
        simp [scanSteps, hstep]
      rw [hsteps]
      rcases findClose opening closing st' xs with _ | n
      · rcases findClose opening closing
            (scanSteps opening closing st' xs) ys with _ | m
        · rfl
        · simp [List.length_cons]
          omega
      · rfl

/-- Stripping is the identity on a list whose first and last characters
are not whitespace. -/
theorem pyStripChars_eq_self {l : List Char} {c d : Char}
    (hhead : l.head? = some c) (hlast : l.getLast? = some d)
    (hc : pyIsSpace c = false) (hd : pyIsSpace d = false) :
    pyStripChars l = l := by
  rcases l with _ | ⟨x, mid⟩
  · cases hhead
  · have hx : x = c := by simpa using hhead
    subst hx
    unfold pyStripChars
    rw [List.dropWhile_cons, if_neg (by simp [hc])]
    rcases hrev : (x :: mid).reverse with _ | ⟨y, t⟩
    · exact absurd hrev (by simp)
    · have hy : y = d := by
        have := List.head?_reverse (x :: mid)
        rw [hrev, hlast] at this
        simpa using this
      subst hy
      rw [List.dropWhile_cons, if_neg (by simp [hd]), ← hrev]
      simp

/-- Locating the payload start in prose-wrapped text: with no bracket in
the prefix and the payload opening with a brace, the first bracket is at
the prefix's end. -/
theorem findIdx_bracket_of_prose :
    ∀ (pre : List Char) (mid post : List Char),
      (∀ c ∈ pre, bracketChar c = false) →
      (pre ++ ('\x7b' :: mid) ++ post).findIdx? bracketChar = some pre.length := by
  intro pre
  induction pre with
  | nil =>
    intro mid post _
    simp [List.findIdx?_cons, bracketChar]
  | cons c pre' ih =>
    intro mid post hpre
    rw [List.cons_append, List.cons_append, List.findIdx?_cons]
    rw [hpre c (by simp)]
    rw [if_neg Bool.false_ne_true, List.findIdx?_succ]
    rw [ih mid post (fun x hx => hpre x (by simp [hx]))]
    simp

/-- Extraction on prose-wrapped balanced text: when the prefix holds no
bracket, the payload opens with a brace, and the scan of the payload
alone first returns exactly at its last character (a closing brace), the
extractor returns exactly the payload, whatever follows it. -/
theorem extract_payload_of_balanced (pre obj post : List Char)
    (hpre : ∀ c ∈ pre, bracketChar c = false)
    (hhead : obj.head? = some '\x7b')
    (hclose : findClose '\x7b' '\x7d' initScanState obj = some (obj.length - 1))
    (hlast : obj.getLast? = some '\x7d') :
    extract_first_json_payload (pre ++ obj ++ post) = obj := by
  rcases obj with _ | ⟨c0, mid⟩
  · cases hhead
  · have hc0 : c0 = '\x7b' := by simpa using hhead
    subst hc0
    have hfc : findClose '\x7b' '\x7d' initScanState ('\x7b' :: (mid ++ post))
        = some mid.length := by
      have happ := findClose_append '\x7b' '\x7d' ('\x7b' :: mid) post initScanState
      have hclose' : findClose '\x7b' '\x7d' initScanState ('\x7b' :: mid)
          = some mid.length := by
        simpa using hclose
      rw [hclose'] at happ
      rw [← List.cons_append]
      exact happ
    unfold extract_first_json_payload
    rw [findIdx_bracket_of_prose pre mid post hpre]
    have hdrop : ((pre ++ ('\x7b' :: mid)) ++ post).drop pre.length
        = '\x7b' :: (mid ++ post) := by
      rw [List.append_assoc]
      exact List.drop_left pre _
    split
    · rename_i heq
      exact absurd heq (by simp)
    · rename_i j heq
      obtain rfl : pre.length = j := by injection heq with h
      rw [hdrop]
      split
      · rename_i heq2
        exact absurd heq2 (by simp)
      · rename_i opening restPayload heq2
        obtain ⟨rfl, rfl⟩ : opening = '\x7b' ∧ restPayload = mid ++ post := by
          injection heq2 with h1 h2
          exact ⟨h1.symm, h2.symm⟩
        rw [if_pos rfl, hfc]
        split
        · rename_i n heq3
          obtain rfl : mid.length = n := by injection heq3 with h
          show pyStripChars (('\x7b' :: (mid ++ post)).take (mid.length + 1))
            = '\x7b' :: mid
          rw [List.take_succ_cons, List.take_left]
          exact pyStripChars_eq_self rfl hlast (by decide) (by decide)
        · rename_i heq3
          exact absurd heq3 (by simp)

/-- C7 counterexample: on `"a {b"` (a payload start with no balanced
close), extraction returns the trimmed suffix from the bracket, not the
trimmed input unchanged. -/
theorem clean_json_unbalanced_not_trimmed_input :
    clean_json_text "a \x7bb" = "\x7bb" ∧
    pyStrip "a \x7bb" = "a \x7bb" ∧
    ("\x7bb" : String) ≠ "a \x7bb" := by
  exact ⟨by decide, by decide, by decide⟩

/-- C7 (amended): cleaning followed by balanced extraction returns
exactly the JSON object's text for an input holding one balanced object
(honoring strings and escapes) surrounded by bracket-free prose and/or
fence lines; when no payload start (`{` or `[`) occurs, the trimmed input
is returned unchanged; and when a payload start occurs but the scan never
returns to depth zero, the trimmed *suffix from the first bracket* is
returned (not the whole trimmed input, as the unamended claim stated). -/
theorem clean_json_text_behavior :
    (∀ (s : String) (pre obj post : List Char),
      pyStripChars s.data ≠ [] →
      strip_markdown_fences (pyStripChars s.data) = pre ++ obj ++ post →
      (∀ c ∈ pre, bracketChar c = false) →
      obj.head? = some '\x7b' →
      findClose '\x7b' '\x7d' initScanState obj = some (obj.length - 1) →
      obj.getLast? = some '\x7d' →
      clean_json_text s = ⟨obj⟩) ∧
    (∀ cs : List Char, (∀ c ∈ cs, bracketChar c = false) →
      extract_first_json_payload cs = pyStripChars cs) ∧
    (∀ (cs rest : List Char) (i : Nat),
      cs.findIdx? bracketChar = some i →
      cs.drop i = '\x7b' :: rest →
      findClose '\x7b' '\x7d' initScanState ('\x7b' :: rest) = none →
      extract_first_json_payload cs = pyStripChars ('\x7b' :: rest)) := by
  refine ⟨?_, ?_, ?_⟩
  · intro s pre obj post hne hsplit hpre hhead hclose hlast
    unfold clean_json_text
    rw [if_neg hne, hsplit, extract_payload_of_balanced pre obj post hpre hhead hclose hlast]
  · intro cs hnone
    unfold extract_first_json_payload
    rw [List.findIdx?_eq_none_iff.2 hnone]
  · intro cs rest i hfind hdrop hnone
    unfold extract_first_json_payload
    rw [hfind]
    split
    · rename_i heq
      exact absurd heq (by simp)
    · rename_i j heq
      obtain rfl : i = j := by injection heq with h
      rw [hdrop]
      split
      · rename_i heq2
        exact absurd heq2 (by simp)
      · rename_i opening restPayload heq2
        obtain ⟨rfl, rfl⟩ : opening = '\x7b' ∧ restPayload = rest := by
          injection heq2 with h1 h2
          exact ⟨h1.symm, h2.symm⟩
        rw [if_pos rfl, hnone]

/-- Witness for C7's amended theorem at concrete inputs: the Scenario B
style fenced response yields exactly the object text; a bracket-free
input comes back trimmed; the unbalanced input `"a {b"` yields the
trimmed suffix from the bracket. -/
theorem clean_json_text_behavior_witness :
    clean_json_text "Here is JSON:\n```json\n\x7b\"issues\":[]\x7d\n```\nEnd."
      = "\x7b\"issues\":[]\x7d" ∧
    extract_first_json_payload "no json here".data
      = pyStripChars "no json here".data ∧
    extract_first_json_payload "a \x7bb".data = pyStripChars ('\x7b' :: "b".data) := by
  refine ⟨?_, ?_, ?_⟩
  · exact clean_json_text_behavior.1
      "Here is JSON:\n```json\n\x7b\"issues\":[]\x7d\n```\nEnd."
      "Here is JSON:\n".data "\x7b\"issues\":[]\x7d".data "\nEnd.".data
      (by decide) (by decide) (by decide) (by decide) (by decide) (by decide)
  · exact clean_json_text_behavior.2.1 "no json here".data (by decide)
  · exact clean_json_text_behavior.2.2 "a \x7bb".data "b".data 2
      (by decide) (by decide) (by decide)

/-! ## Secret redaction (src/safety/utils.py, SecretRedactor)

The five compiled patterns are embedded as deterministic matchers (their
regexes are deterministic up to the analyzed backtracking of the
quantifier before a trailing word boundary, which the `sk-` matcher
reproduces by searching splits longest-first).  `re.sub` is embedded as a
left-to-right scan emitting unmatched characters unchanged and replacing
each match by `full.replace(value, "********")`.  Word characters are the
ASCII `[A-Za-z0-9_]` (the prompts the program redacts are ASCII). -/

/-- ASCII word character, for the regex `\b` boundaries. -/
def isWordChar (c : Char) : Bool :=
  c.isAlpha || c.isDigit || c = '_'

/-- A `\b` word boundary between two adjacent positions (a missing side
counts as non-word). -/
def wordBoundary (a b : Option Char) : Bool :=
  (match a with | some c => isWordChar c | none => false)
    != (match b with | some c => isWordChar c | none => false)

/-- Consume exactly `n` characters all satisfying `p` (a fixed-count
character class). -/
def takeExact : Nat → (Char → Bool) → List Char → Option (List Char × List Char)
  | 0, _, cs => some ([], cs)
  | _ + 1, _, [] => none
  | n + 1, p, c :: cs =>
    if p c then (takeExact n p cs).map (fun r => (c :: r.1, r.2)) else none

/-- Consume a literal prefix (case-sensitive). -/
def stripPrefixExact : List Char → List Char → Option (List Char)
  | [], cs => some cs
  | _ :: _, [] => none
  | p :: ps, c :: cs => if c = p then stripPrefixExact ps cs else none

/-- Consume a keyword case-insensitively (the keyword given lowercase),
returning the consumed original-case characters and the rest. -/
def matchKeywordCI : List Char → List Char → Option (List Char × List Char)
  | [], cs => some ([], cs)
  | _ :: _, [] => none
  | k :: kw, c :: cs =>
    if c.toLower = k then (matchKeywordCI kw cs).map (fun r => (c :: r.1, r.2))
    else none

/-- The keyword alternation of the first pattern, expanded (the optional
groups `[_-]?` and `(?:o|or)?` yield fixed strings; which expansion
applies is determined by the text, so the order is immaterial). -/
def p1Keywords : List (List Char) :=
  ["api_key".data, "api-key".data, "apikey".data, "token".data,
   "secret".data, "password".data, "passwrod".data, "passworrd".data,
   "passwrd".data, "pwd".data, "auth".data]

/-- A character ending the quoted-value class `[^'"\r\n]`. -/
def quoteOrNl (c : Char) : Bool :=
  c = '\'' || c = '"' || c = '\r' || c = '\n'

/-- Attempt of one keyword of the first pattern at the current position:
leading and trailing `\b` around the keyword (case-insensitive),
`\s*[:=]\s*`, a quote, at least 8 value characters, and the same quote
(the backreference; the value class excludes both quote characters, so no
shorter match can close it).  Returns (full match, captured value,
rest). -/
def p1TryKeyword (kw : List Char) (prev : Option Char) (cs : List Char) :
    Option (List Char × List Char × List Char) :=
  if wordBoundary prev cs.head? = false then none
  else match matchKeywordCI kw cs with
  | none => none
  | some (kwStr, r1) =>
    if wordBoundary kwStr.getLast? r1.head? = false then none
    else match r1.dropWhile pyIsSpace with
    | [] => none
    | sep :: r3 =>
      if sep = ':' || sep = '=' then
        match r3.dropWhile pyIsSpace with
        | [] => none
        | q :: r5 =>
          if q = '\'' || q = '"' then
            match r5.dropWhile (fun c => !(quoteOrNl c)) with
            | [] => none
            | q2 :: r7 =>
              if q2 = q ∧ 8 ≤ (r5.takeWhile (fun c => !(quoteOrNl c))).length then
                some (kwStr ++ r1.takeWhile pyIsSpace ++ [sep]
                    ++ r3.takeWhile pyIsSpace ++ [q]
                    ++ r5.takeWhile (fun c => !(quoteOrNl c)) ++ [q],
                  r5.takeWhile (fun c => !(quoteOrNl c)), r7)
              else none
          else none
      else none

/-- The first pattern (quoted secret-like assignments): the first keyword
attempt that succeeds. -/
def p1MatchAux : List (List Char) → Option Char → List Char →
    Option (List Char × List Char × List Char)
  | [], _, _ => none
  | kw :: kws, prev, cs =>
    match p1TryKeyword kw prev cs with
    | some r => some r
    | none => p1MatchAux kws prev cs

/-- Matcher of pattern 1. -/
def p1Match (prev : Option Char) (cs : List Char) :
    Option (List Char × List Char × List Char) :=
  p1MatchAux p1Keywords prev cs

/-- Matcher of pattern 2, `github_pat_` followed by exactly 82 word
characters (no boundaries in the pattern); the whole match is the
captured group. -/
def githubPatMatch (_ : Option Char) (cs : List Char) :
    Option (List Char × List Char × List Char) :=
  match stripPrefixExact "github_pat_".data cs with
  | none => none
  | some r1 =>
    match takeExact 82 isWordChar r1 with
    | none => none
    | some (tok, rest) =>
      some ("github_pat_".data ++ tok, "github_pat_".data ++ tok, rest)

/-- Matcher of pattern 3, `gh[opusr]_` followed by exactly 36
alphanumerics. -/
def ghTokenMatch (_ : Option Char) (cs : List Char) :
    Option (List Char × List Char × List Char) :=
  match cs with
  | 'g' :: 'h' :: k :: '_' :: r1 =>
    if k = 'o' || k = 'p' || k = 'u' || k = 's' || k = 'r' then
      match takeExact 36 (fun c => c.isAlpha || c.isDigit) r1 with
      | none => none
      | some (tok, rest) =>
        some ('g' :: 'h' :: k :: '_' :: tok, 'g' :: 'h' :: k :: '_' :: tok, rest)
    else none
  | _ => none

/-- The character class of the `sk-` and `AIza` key bodies. -/
def skClass (c : Char) : Bool :=
  c.isAlpha || c.isDigit || c = '_' || c = '-'

/-- Greedy backtracking of `[...]{20,}\b`: the largest split `k ≥ 20` of
the maximal class run such that a word boundary holds between the k-th
run character and what follows it (the next run character when `k` is
inside the run, otherwise the first character after the run). -/
def bestSplit (run : List Char) (next : Option Char) : Nat → Option Nat
  | 0 => none
  | k + 1 =>
    if 20 ≤ k + 1 ∧ wordBoundary (run.get? k)
        (match run.get? (k + 1) with | some c => some c | none => next) = true
    then some (k + 1)
    else bestSplit run next k

/-- Matcher of pattern 4, `\b(sk-[A-Za-z0-9_-]{20,})\b`. -/
def skMatch (prev : Option Char) (cs : List Char) :
    Option (List Char × List Char × List Char) :=
  if wordBoundary prev cs.head? = false then none
  else match cs with
  | 's' :: 'k' :: '-' :: r1 =>
    match bestSplit (r1.takeWhile skClass) (r1.dropWhile skClass).head?
        (r1.takeWhile skClass).length with
    | none => none
    | some k =>
      some ('s' :: 'k' :: '-' :: (r1.takeWhile skClass).take k,
        's' :: 'k' :: '-' :: (r1.takeWhile skClass).take k,
        (r1.takeWhile skClass).drop k ++ r1.dropWhile skClass)
  | _ => none

/-- Matcher of pattern 5, `\b(AIza[0-9A-Za-z\-_]{35})\b` (a fixed count,
so no backtracking: the trailing boundary is checked after the 35th class
character). -/
def aizaMatch (prev : Option Char) (cs : List Char) :
    Option (List Char × List Char × List Char) :=
  if wordBoundary prev cs.head? = false then none
  else match cs with
  | 'A' :: 'I' :: 'z' :: 'a' :: r1 =>
    match takeExact 35 skClass r1 with
    | none => none
    | some (tok, rest) =>
      if wordBoundary tok.getLast? rest.head? then
        some ('A' :: 'I' :: 'z' :: 'a' :: tok, 'A' :: 'I' :: 'z' :: 'a' :: tok, rest)
      else none
  | _ => none

/-- The compiled patterns, in the order `SecretRedactor.PATTERNS` lists
them; `redact` applies them sequentially, each scanning the previous
pass's output. -/
def patternMatchers :
    List (Option Char → List Char → Option (List Char × List Char × List Char)) :=
  [p1Match, githubPatMatch, ghTokenMatch, skMatch, aizaMatch]

/-- Python `s.replace(old, new)` with fuel (each step consumes at least
one character when `old` is non-empty, which is the only use here). -/
def replaceFuel (pat repl : List Char) : Nat → List Char → List Char
  | 0, s => s
  | fuel + 1, s =>
    if pat ≠ [] ∧ pat.isPrefixOf s then
      repl ++ replaceFuel pat repl fuel (s.drop pat.length)
    else match s with
    | [] => []
    | c :: s' => c :: replaceFuel pat repl fuel s'

/-- Python `s.replace(old, new)` (for non-empty `old`). -/
def listReplace (s pat repl : List Char) : List Char :=
  replaceFuel pat repl s.length s

/-- One `pattern.sub(replace_match, text)` pass (utils.py lines 35-46):
scan left to right carrying the previous character (for `\b`); an
unmatched character is emitted unchanged; a match `(full, value, rest)`
emits `full.replace(value, "********")` and resumes after the match. -/
def subScanFuel
    (try' : Option Char → List Char → Option (List Char × List Char × List Char)) :
    Nat → Option Char → List Char → List Char
  | 0, _, s => s
  | fuel + 1, prev, s =>
    match try' prev s with
    | some (full, value, rest) =>
      listReplace full value "********".data
        ++ subScanFuel try' fuel full.getLast? rest
    | none =>
      match s with
      | [] => []
      | c :: s' => c :: subScanFuel try' fuel (some c) s'

/-- One whole-string substitution pass. -/
def subScan
    (try' : Option Char → List Char → Option (List Char × List Char × List Char))
    (cs : List Char) : List Char :=
  subScanFuel try' cs.length none cs

/-- `SecretRedactor.redact` (utils.py lines 30-48): the empty string is
returned as is; otherwise the five patterns are substituted in order,
each pass scanning the previous pass's output. -/
def redact (text : String) : String :=
  if text = "" then text
  else ⟨patternMatchers.foldl (fun cs m => subScan m cs) text.data⟩

/-- Splitting helpers: a successful `takeExact` splits its input. -/
theorem takeExact_split :
    ∀ {n : Nat} {p : Char → Bool} {cs tok rest : List Char},
      takeExact n p cs = some (tok, rest) → cs = tok ++ rest := by
  intro n
  induction n with
  | zero =>
    intro p cs tok rest h
    have h' : some (([] : List Char), cs) = some (tok, rest) := h
    simp only [Option.some.injEq, Prod.mk.injEq] at h'
    obtain ⟨htok, hrest⟩ := h'
    subst htok
    subst hrest
    rfl
  | succ m ih =>
    intro p cs tok rest h
    rcases cs with _ | ⟨c, cs'⟩
    · exact absurd h (by simp [takeExact])
    · simp only [takeExact] at h
      split at h
      · rcases htk : takeExact m p cs' with _ | ⟨tok', rest'⟩
        · rw [htk] at h
          exact absurd h (by simp)
        · rw [htk] at h
          have h' : some ((c :: tok', rest')) = some (tok, rest) := h
          simp only [Option.some.injEq, Prod.mk.injEq] at h'
          obtain ⟨htok, hrest⟩ := h'
          subst htok
          subst hrest
          rw [ih htk]
          rfl
      · exact absurd h (by simp)

/-- A successful case-sensitive prefix strip splits its input. -/
theorem stripPrefixExact_split :
    ∀ {ps cs rest : List Char},
      stripPrefixExact ps cs = some rest → cs = ps ++ rest := by
  intro ps
  induction ps with
  | nil =>
    intro cs rest h
    have h' : some cs = some rest := h
    simp only [Option.some.injEq] at h'
    rw [h']
    rfl
  | cons p ps' ih =>
    intro cs rest h
    rcases cs with _ | ⟨c, cs'⟩
    · exact absurd h (by simp [stripPrefixExact])
    · simp only [stripPrefixExact] at h
      split at h
      · rename_i hc
        rw [List.cons_append, ← ih h, hc]
      · exact absurd h (by simp)

/-- A successful case-insensitive keyword match splits its input. -/
theorem matchKeywordCI_split :
    ∀ {kw cs str rest : List Char},
      matchKeywordCI kw cs = some (str, rest) → cs = str ++ rest := by
  intro kw
  induction kw with
  | nil =>
    intro cs str rest h
    have h' : some (([] : List Char), cs) = some (str, rest) := h
    simp only [Option.some.injEq, Prod.mk.injEq] at h'
    obtain ⟨hstr, hrest⟩ := h'
    subst hstr
    subst hrest
    rfl
  | cons k kw' ih =>
    intro cs str rest h
    rcases cs with _ | ⟨c, cs'⟩
    · exact absurd h (by simp [matchKeywordCI])
    · simp only [matchKeywordCI] at h
      split at h
      · rcases hm : matchKeywordCI kw' cs' with _ | ⟨str', rest'⟩
        · rw [hm] at h
          exact absurd h (by simp)
        · rw [hm] at h
          have h' : some ((c :: str', rest')) = some (str, rest) := h
          simp only [Option.some.injEq, Prod.mk.injEq] at h'
          obtain ⟨hstr, hrest⟩ := h'
          subst hstr
          subst hrest
          rw [ih hm]
          rfl
      · exact absurd h (by simp)

/-- A successful keyword-pattern attempt consumes a non-empty prefix of
its input. -/
theorem p1TryKeyword_consumes {kw : List Char} {prev : Option Char}
    {cs full value rest : List Char}
    (h : p1TryKeyword kw prev cs = some (full, value, rest)) :
    cs = full ++ rest ∧ full ≠ [] := by
  unfold p1TryKeyword at h
  split at h
  · exact absurd h (by simp)
  · split at h
    · exact absurd h (by simp)
    · rename_i kwStr r1 hkw
      split at h
      · exact absurd h (by simp)
      · split at h
        · exact absurd h (by simp)
        · rename_i sep r3 hr1
          split at h
          · split at h
            · exact absurd h (by simp)
            · rename_i q r5 hr3
              split at h
              · split at h
                · exact absurd h (by simp)
                · rename_i q2 r7 hr5
                  split at h
                  · rename_i hcond
                    have h' : some ((kwStr ++ r1.takeWhile pyIsSpace ++ [sep]
                          ++ r3.takeWhile pyIsSpace ++ [q]
                          ++ r5.takeWhile (fun c => !(quoteOrNl c)) ++ [q],
                        r5.takeWhile (fun c => !(quoteOrNl c)), r7))
                        = some (full, value, rest) := h
                    simp only [Option.some.injEq, Prod.mk.injEq] at h'
                    obtain ⟨hfull, hvalue, hrest⟩ := h'
                    subst hfull
                    subst hrest
                    have hcs := matchKeywordCI_split hkw
                    have e1 : r1 = r1.takeWhile pyIsSpace ++ (sep :: r3) := by
                      rw [← hr1]
                      exact (List.takeWhile_append_dropWhile pyIsSpace r1).symm
                    have e3 : r3 = r3.takeWhile pyIsSpace ++ (q :: r5) := by
                      rw [← hr3]
                      exact (List.takeWhile_append_dropWhile pyIsSpace r3).symm
                    have e5 : r5 = r5.takeWhile (fun c => !(quoteOrNl c)) ++ (q2 :: r7) := by
                      rw [← hr5]
                      exact (List.takeWhile_append_dropWhile (fun c => !(quoteOrNl c)) r5).symm
                    refine ⟨?_, by simp⟩
                    rw [hcs]
                    conv_lhs => rw [e1, e3, e5, hcond.1]
                    simp [List.append_assoc]
                  · exact absurd h (by simp)
              · exact absurd h (by simp)
          · exact absurd h (by simp)

/-- A successful first-pattern match consumes a non-empty prefix. -/
theorem p1Match_consumes {prev : Option Char} {cs full value rest : List Char}
    (h : p1Match prev cs = some (full, value, rest)) :
    cs = full ++ rest ∧ full ≠ [] := by
  unfold p1Match at h
  generalize p1Keywords = kws at h
  induction kws with
  | nil => exact absurd h (by simp [p1MatchAux])
  | cons kw kws ih =>
    simp only [p1MatchAux] at h
    split at h
    · rename_i hkw
      have h' := hkw.trans h
      exact p1TryKeyword_consumes h'
    · exact ih h

/-- A successful `github_pat_` match consumes a non-empty prefix. -/
theorem githubPatMatch_consumes {prev : Option Char} {cs full value rest : List Char}
    (h : githubPatMatch prev cs = some (full, value, rest)) :
    cs = full ++ rest ∧ full ≠ [] := by
  unfold githubPatMatch at h
  split at h
  · exact absurd h (by simp)
  · rename_i r1 hstrip
    split at h
    · exact absurd h (by simp)
    · rename_i tok rest' htok
      have h' : some (("github_pat_".data ++ tok, "github_pat_".data ++ tok, rest'))
          = some (full, value, rest) := h
      simp only [Option.some.injEq, Prod.mk.injEq] at h'
      obtain ⟨hfull, -, hrest⟩ := h'
      subst hfull
      subst hrest
      refine ⟨?_, by simp⟩
      rw [stripPrefixExact_split hstrip, takeExact_split htok]
      simp [List.append_assoc]

/-- A successful `gh?_` token match consumes a non-empty prefix. -/
theorem ghTokenMatch_consumes {prev : Option Char} {cs full value rest : List Char}
    (h : ghTokenMatch prev cs = some (full, value, rest)) :
    cs = full ++ rest ∧ full ≠ [] := by
  unfold ghTokenMatch at h
  split at h
  · rename_i k r1
    split at h
    · split at h
      · exact absurd h (by simp)
      · rename_i tok rest' htok
        have h' : some (('g' :: 'h' :: k :: '_' :: tok,
            'g' :: 'h' :: k :: '_' :: tok, rest')) = some (full, value, rest) := h
        simp only [Option.some.injEq, Prod.mk.injEq] at h'
        obtain ⟨hfull, -, hrest⟩ := h'
        subst hfull
        subst hrest
        refine ⟨?_, by simp⟩
        rw [takeExact_split htok]
        rfl
    · exact absurd h (by simp)
  · exact absurd h (by simp)

/-- A successful `sk-` match consumes a non-empty prefix. -/
theorem skMatch_consumes {prev : Option Char} {cs full value rest : List Char}
    (h : skMatch prev cs = some (full, value, rest)) :
    cs = full ++ rest ∧ full ≠ [] := by
  unfold skMatch at h
  split at h
  · exact absurd h (by simp)
  · split at h
    · rename_i r1 hwb
      split at h
      · exact absurd h (by simp)
      · rename_i k hsplit
        have h' : some (('s' :: 'k' :: '-' :: (r1.takeWhile skClass).take k,
            's' :: 'k' :: '-' :: (r1.takeWhile skClass).take k,
            (r1.takeWhile skClass).drop k ++ r1.dropWhile skClass))
            = some (full, value, rest) := h
        simp only [Option.some.injEq, Prod.mk.injEq] at h'
        obtain ⟨hfull, -, hrest⟩ := h'
        subst hfull
        subst hrest
        refine ⟨?_, by simp⟩
        show 's' :: 'k' :: '-' :: r1 = _
        rw [List.cons_append, List.cons_append, List.cons_append]
        congr 3
        rw [← List.append_assoc, List.take_append_drop]
        exact (List.takeWhile_append_dropWhile skClass r1).symm
    · exact absurd h (by simp)

/-- A successful `AIza` match consumes a non-empty prefix. -/
theorem aizaMatch_consumes {prev : Option Char} {cs full value rest : List Char}
    (h : aizaMatch prev cs = some (full, value, rest)) :
    cs = full ++ rest ∧ full ≠ [] := by
  unfold aizaMatch at h
  split at h
  · exact absurd h (by simp)
  · split at h
    · rename_i r1 hwb
      split at h
      · exact absurd h (by simp)
      · rename_i tok rest' htok
        split at h
        · have h' : some (('A' :: 'I' :: 'z' :: 'a' :: tok,
              'A' :: 'I' :: 'z' :: 'a' :: tok, rest')) = some (full, value, rest) := h
          simp only [Option.some.injEq, Prod.mk.injEq] at h'
          obtain ⟨hfull, -, hrest⟩ := h'
          subst hfull
          subst hrest
          refine ⟨?_, by simp⟩
          rw [takeExact_split htok]
          rfl
        · exact absurd h (by simp)
    · exact absurd h (by simp)

/-- A segment of a substitution pass: either an unmatched character,
passed through unchanged, or a match with its captured value. -/
inductive RSeg where
  | lit (c : Char)
  | hit (full value : List Char)

/-- The original text of a segment. -/
def rsegOrig : RSeg → List Char
  | .lit c => [c]
  | .hit full _ => full

/-- The emitted text of a segment: unmatched characters unchanged, a
match replaced by `full.replace(value, "********")`. -/
def rsegOut : RSeg → List Char
  | .lit c => [c]
  | .hit full value => listReplace full value "********".data

/-- A segmentation is valid for a matcher when, at each unmatched
character, the matcher fails on the remaining text, and at each match,
the matcher succeeds on the remaining text with exactly that match, the
scan resuming after it with the match's last character as context. -/
inductive Covers
    (try' : Option Char → List Char → Option (List Char × List Char × List Char)) :
    Option Char → List RSeg → Prop where
  | nil (prev : Option Char) : Covers try' prev []
  | lit (prev : Option Char) (c : Char) (segs : List RSeg)
      (hnone : try' prev (c :: segs.flatMap rsegOrig) = none)
      (htail : Covers try' (some c) segs) :
      Covers try' prev (.lit c :: segs)
  | hit (prev : Option Char) (full value : List Char) (segs : List RSeg)
      (hmatch : try' prev (full ++ segs.flatMap rsegOrig)
        = some (full, value, segs.flatMap rsegOrig))
      (htail : Covers try' full.getLast? segs) :
      Covers try' prev (.hit full value :: segs)

/-- Under a consuming matcher the pass maps empty input to empty
output whatever the fuel. -/
theorem subScanFuel_nil
    {try' : Option Char → List Char → Option (List Char × List Char × List Char)}
    (hcons : ∀ prev cs full value rest,
      try' prev cs = some (full, value, rest) → cs = full ++ rest ∧ full ≠ []) :
    ∀ (fuel : Nat) (prev : Option Char), subScanFuel try' fuel prev [] = [] := by
  intro fuel prev
  rcases fuel with _ | f
  · rfl
  · simp only [subScanFuel]
    rcases htry : try' prev [] with _ | ⟨full, value, rest⟩
    · rfl
    · obtain ⟨hsplit, hne⟩ := hcons prev [] full value rest htry
      exact absurd hsplit.symm (by simp [hne])

/-- Decomposition of one substitution pass: for a consuming matcher,
every input splits into a segmentation the pass respects — unmatched
characters are emitted unchanged and each match is emitted with its
captured value replaced. -/
theorem subScan_decomposition_aux
    {try' : Option Char → List Char → Option (List Char × List Char × List Char)}
    (hcons : ∀ prev cs full value rest,
      try' prev cs = some (full, value, rest) → cs = full ++ rest ∧ full ≠ []) :
    ∀ (n : Nat) (cs : List Char), cs.length ≤ n → ∀ (prev : Option Char),
      ∃ segs : List RSeg, Covers try' prev segs ∧
        segs.flatMap rsegOrig = cs ∧
        ∀ fuel, cs.length ≤ fuel →
          subScanFuel try' fuel prev cs = segs.flatMap rsegOut := by
  intro n
  induction n with
  | zero =>
    intro cs hlen prev
    have hnil : cs = [] := List.eq_nil_of_length_eq_zero (Nat.le_zero.1 hlen)
    subst hnil
    exact ⟨[], Covers.nil prev, rfl, fun fuel _ => subScanFuel_nil hcons fuel prev⟩
  | succ m ih =>
    intro cs hlen prev
    rcases cs with _ | ⟨c, cs'⟩
    · exact ⟨[], Covers.nil prev, rfl, fun fuel _ => subScanFuel_nil hcons fuel prev⟩
    · rcases htry : try' prev (c :: cs') with _ | ⟨full, value, rest⟩
      · obtain ⟨segs, hcov, hflat, hout⟩ :=
          ih cs' (by simpa using Nat.le_of_succ_le_succ hlen) (some c)
        refine ⟨.lit c :: segs, ?_, ?_, ?_⟩
        · exact Covers.lit prev c segs (by rw [hflat]; exact htry) hcov
        · simp [rsegOrig, hflat]
        · intro fuel hfuel
          rcases fuel with _ | f
          · exact absurd hfuel (by simp)
          · simp only [subScanFuel, htry]
            rw [hout f (by simpa using Nat.le_of_succ_le_succ hfuel)]
            simp [rsegOut]
      · obtain ⟨hsplit, hfne⟩ := hcons prev (c :: cs') full value rest htry
        have hlens : cs'.length + 1 = full.length + rest.length := by
          have := congrArg List.length hsplit
          simpa using this
        have hfpos : 1 ≤ full.length := by
          rcases full with _ | _
          · exact absurd rfl hfne
          · simp
        have hlen' : cs'.length + 1 ≤ m + 1 := by simpa using hlen
        obtain ⟨segs, hcov, hflat, hout⟩ :=
          ih rest (by omega) full.getLast?
        refine ⟨.hit full value :: segs, ?_, ?_, ?_⟩
        · refine Covers.hit prev full value segs ?_ hcov
          rw [hflat, ← hsplit]
          exact htry
        · simp only [List.flatMap_cons, rsegOrig, hflat]
          exact hsplit.symm
        · intro fuel hfuel
          rcases fuel with _ | f
          · exact absurd hfuel (by simp)
          · simp only [subScanFuel, htry]
            rw [hout f (by simp at hfuel; omega)]
            simp [rsegOut]

/-- The consuming property holds for all five compiled matchers. -/
theorem patternMatchers_consume :
    ∀ m ∈ patternMatchers, ∀ (prev : Option Char) (cs full value rest : List Char),
      m prev cs = some (full, value, rest) → cs = full ++ rest ∧ full ≠ [] := by
  intro m hm
  simp only [patternMatchers, List.mem_cons, List.not_mem_nil, or_false] at hm
  rcases hm with rfl | rfl | rfl | rfl | rfl
  · exact fun _ _ _ _ _ h => p1Match_consumes h
  · exact fun _ _ _ _ _ h => githubPatMatch_consumes h
  · exact fun _ _ _ _ _ h => ghTokenMatch_consumes h
  · exact fun _ _ _ _ _ h => skMatch_consumes h
  · exact fun _ _ _ _ _ h => aizaMatch_consumes h

/-- The diff text block of the `review_file` user prompt (analyzer.py
lines 257-260): each hunk contributes its header line and its raw lines
joined by newlines. -/
def reviewFileDiffContent (file : ChangedFile) : String :=
  file.hunks.foldl (fun acc h => acc ++ h.header ++ "\n" ++ joinLines h.lines ++ "\n") ""

/-- The docs-evidence block of the `review_file` user prompt
(analyzer.py line 262). -/
def reviewFileEvidenceText (docs : List Evidence) : String :=
  joinLines (docs.map (fun e => "[" ++ e.source ++ "]: " ++ e.excerpt))

/-- The `review_file` user prompt (analyzer.py lines 264-273): file
path, addition/deletion counts, docs evidence, and diff content. -/
def reviewFileUserPrompt (file : ChangedFile) (docs : List Evidence) : String :=
  "\nFile: " ++ file.path
    ++ "\nAdditions: " ++ toString file.additions
    ++ ", Deletions: " ++ toString file.deletions
    ++ "\n\nRelevant Generic Docs:\n" ++ reviewFileEvidenceText docs
    ++ "\n\nDiff:\n" ++ reviewFileDiffContent file ++ "\n"

/-- The user-message content `review_file` hands to `get_completion`
(analyzer.py lines 274-285): the prompt is passed through
`SecretRedactor.redact` (`safe_user_prompt`) before the request is
issued. -/
def review_file_sent_user_prompt (file : ChangedFile) (docs : List Evidence) : String :=
  redact (reviewFileUserPrompt file docs)

/-- C10: the per-file review request carries the redacted user prompt,
and every substitution pass of `redact` (one per compiled pattern)
admits, on every input, a segmentation in which each unmatched character
is emitted unchanged and each pattern match is emitted with its captured
secret value replaced by `"********"` (the matched segments are
certified by the matcher itself, position by position). -/
theorem redact_request_and_substitution :
    (∀ (file : ChangedFile) (docs : List Evidence),
      review_file_sent_user_prompt file docs
        = redact (reviewFileUserPrompt file docs)) ∧
    (∀ m ∈ patternMatchers, ∀ (cs : List Char),
      ∃ segs : List RSeg, Covers m none segs ∧
        segs.flatMap rsegOrig = cs ∧
        subScan m cs = segs.flatMap rsegOut) := by
  refine ⟨fun _ _ => rfl, ?_⟩
  intro m hm cs
  obtain ⟨segs, hcov, hflat, hout⟩ :=
    subScan_decomposition_aux (patternMatchers_consume m hm) cs.length cs le_rfl none
  exact ⟨segs, hcov, hflat, hout cs.length le_rfl⟩

/-- Witness for C10 at concrete inputs: the request embedding at a
concrete file, and the decomposition of the quoted-assignment pass on
the repository's own test string. -/
theorem redact_request_and_substitution_witness :
    review_file_sent_user_prompt (exChanged "a.py") []
      = redact (reviewFileUserPrompt (exChanged "a.py") []) ∧
    (∃ segs : List RSeg, Covers p1Match none segs ∧
      segs.flatMap rsegOrig = "password = \"supersecret123\"".data ∧
      subScan p1Match "password = \"supersecret123\"".data
        = segs.flatMap rsegOut) := by
  exact ⟨redact_request_and_substitution.1 (exChanged "a.py") [],
    redact_request_and_substitution.2 p1Match (by simp [patternMatchers]) _⟩
